import Mathlib

/-!
Shallow embedding of the ooftn ECS core (Go) into Lean 4, together with
proofs settling the frozen claims about it.

Correspondence with the source:

* `ecs/storage.go` (also `unnamed/part_005`, same file with singletons) —
  `Storage` and its operations.
* `ecs/archetype.go` — `Archetype` and its operations.
* `unnamed/part_007` (first section) — `EntityId` / `EntityRef`.
* `unnamed/part_007` (second section) — `genericComponentStorage`,
  embedded here as `Pool`.
* `unnamed/part_013` (first section) — `Commands` and `Commands.Flush`
  with the rename chain.
* `ecs/singleton.go` (first section) — the `Singleton` accessor.

Modelling decisions (each marked again at the definition it concerns):

* Component types (`reflect.Type`) are modelled as natural numbers; the total
  order `sort.Sort(byTypeName)` uses on type names is modelled by `≤` on `Nat`
  (any stable total order is equivalent for the semantics).
* The 32-bit FNV-1a hash `hashTypesToUint32` of the sorted type list is
  modelled by the sorted type list itself (an injective hash).  The semantics
  of the Go code is only correct when this hash does not collide, and every
  claim presupposes collision-free hashing, so the archetype map is keyed by
  the sorted list directly.  Consequently `EntityId` is the pair of the
  archetype key and the slot index; the reserved all-zero id is the pair
  `([], 0)` — faithful, because no archetype ever has an empty type list.
* Go heap mutation of `EntityRef` objects shared between Storage and user is
  modelled by a ref heap inside `Storage` addressed by numeric identities;
  `weak.Pointer` liveness is modelled as always alive (the claims quantify
  over refs that the user still holds).
* The component pools store blocks of 64 entries; the block vectors
  `blocks [][64]T` / `filled [][64]bool` are flattened into lists of length
  `64 * len(blocks)` (Go addresses cells exclusively by
  `index/64`, `index%64`, so the flattening is a bijection on states).
* Values stored in pools are `Nat`; a Go `any` that may be a typed value or
  `nil` is `Option Nat` together with its type tag (`CompV`).
-/

set_option linter.unusedVariables false

namespace Ooftn

/-- Association list lookup: first entry with the given key.  Models reads of
Go maps (`map[K]V`), whose keys are unique. -/
def alGet {κ ν : Type} [DecidableEq κ] : List (κ × ν) → κ → Option ν
  | [], _ => none
  | (k, v) :: rest, k' => if k = k' then some v else alGet rest k'

/-- Association list write: replace the first entry with the key, or append a
new entry.  Models writes to Go maps. -/
def alSet {κ ν : Type} [DecidableEq κ] : List (κ × ν) → κ → ν → List (κ × ν)
  | [], k, v => [(k, v)]
  | (k0, v0) :: rest, k, v =>
    if k0 = k then (k, v) :: rest else (k0, v0) :: alSet rest k v

/-- Association list erase: drop every entry with the key.  Models `delete` on
Go maps. -/
def alErase {κ ν : Type} [DecidableEq κ] (l : List (κ × ν)) (k : κ) : List (κ × ν) :=
  l.filter (fun e => decide (e.1 ≠ k))

@[simp] theorem alGet_nil {κ ν : Type} [DecidableEq κ] (k : κ) :
    alGet ([] : List (κ × ν)) k = none := rfl

@[simp] theorem alGet_cons {κ ν : Type} [DecidableEq κ] (k0 : κ) (v0 : ν) (rest : List (κ × ν)) (k : κ) :
    alGet ((k0, v0) :: rest) k = if k0 = k then some v0 else alGet rest k := rfl

theorem alGet_alSet_self {κ ν : Type} [DecidableEq κ] (l : List (κ × ν)) (k : κ) (v : ν) :
    alGet (alSet l k v) k = some v := by
  induction l with
  | nil => simp [alSet]
  | cons e rest ih =>
    obtain ⟨k0, v0⟩ := e
    by_cases h : k0 = k <;> simp [alSet, h, ih]

theorem alGet_alSet_ne {κ ν : Type} [DecidableEq κ] (l : List (κ × ν)) (k k' : κ) (v : ν)
    (h : k ≠ k') : alGet (alSet l k v) k' = alGet l k' := by
  induction l with
  | nil => simp [alSet, h]
  | cons e rest ih =>
    obtain ⟨k0, v0⟩ := e
    by_cases h0 : k0 = k
    · subst h0; simp [alSet, h]
    · simp [alSet, h0, ih]

theorem alGet_alErase_self {κ ν : Type} [DecidableEq κ] (l : List (κ × ν)) (k : κ) :
    alGet (alErase l k) k = none := by
  induction l with
  | nil => rfl
  | cons e rest ih =>
    obtain ⟨k0, v0⟩ := e
    by_cases h : k0 = k
    · simpa [alErase, List.filter_cons, h] using ih
    · simpa [alErase, List.filter_cons, h] using ih

theorem alGet_alErase_ne {κ ν : Type} [DecidableEq κ] (l : List (κ × ν)) (k k' : κ)
    (h : k ≠ k') : alGet (alErase l k) k' = alGet l k' := by
  induction l with
  | nil => rfl
  | cons e rest ih =>
    obtain ⟨k0, v0⟩ := e
    by_cases h0 : k0 = k
    · simpa [alErase, List.filter_cons, h0, h] using ih
    · simp only [alErase, List.filter_cons, decide_not] at ih ⊢
      by_cases h1 : k0 = k'
      · simp [h0, h1, Ne.symm h]
      · simp [h0, h1, ih]

theorem isSome_alGet_alSet {κ ν : Type} [DecidableEq κ] (l : List (κ × ν)) (k k' : κ) (v : ν)
    (h : (alGet l k').isSome) : (alGet (alSet l k v) k').isSome := by
  by_cases hk : k = k'
  · subst hk; simp [alGet_alSet_self]
  · rwa [alGet_alSet_ne _ _ _ _ hk]

theorem length_alSet_ge {κ ν : Type} [DecidableEq κ] (l : List (κ × ν)) (k : κ) (v : ν) :
    l.length ≤ (alSet l k v).length := by
  induction l with
  | nil => simp [alSet]
  | cons e rest ih =>
    obtain ⟨k0, v0⟩ := e
    by_cases h : k0 = k
    · simp [alSet, h]
    · simp only [alSet, if_neg h, List.length_cons]
      omega

/-! ## Entity identity (`unnamed/part_007`, first section)

Go packs `(archetypeId : uint32, index : uint32)` into a `uint64`; with the
archetype hash modelled injectively by the sorted type list, an `EntityId`
is the pair of that list and the slot index.  The reserved value `0` is the
pair `([], 0)`: no archetype ever carries an empty type list, so exactly the
Go zero id is represented this way. -/

structure EntityId where
  arch : List Nat
  idx : Nat
deriving DecidableEq, Repr

/-- The reserved "invalid / deleted" EntityId (Go `EntityId(0)`). -/
def zeroId : EntityId := ⟨[], 0⟩

/-- `uint32` conversion of the Go `int` storage position returned by
`Archetype.Spawn`: `-1` (the Append failure sentinel) becomes `2^32 - 1`, as
in Go.  Non-negative positions are kept exact; Go would truncate positions
at `2^32`, where slot indices alias — every claim presupposes entity counts
below that, just as it presupposes collision-free archetype hashing. -/
def u32 (i : Int) : Nat :=
  if i < 0 then (i % (4294967296 : Int)).toNat else i.toNat

@[simp] theorem u32_ofNat (n : Nat) : u32 (Int.ofNat n) = n := by
  unfold u32
  rw [Int.ofNat_eq_natCast]
  split <;> omega

/-- The data held by a Go `EntityRef` object (`Id`, `Archetype`); the
`*Archetype` pointer is modelled by the optional archetype key, `none`
standing for `nil`. -/
structure EntityRefData where
  id : EntityId
  archId : Option (List Nat)
deriving DecidableEq, Repr

/-- A component value as carried by a Go `any`: the dynamic type together
with the value, `none` modelling a `nil` interface. -/
structure CompV where
  typ : Nat
  val : Option Nat
deriving DecidableEq, Repr

/-! ## Component pool (`unnamed/part_007`, `genericComponentStorage`)

`blocks [][64]T` and `filled [][64]bool` are flattened into lists of length
`64 * blocks`; Go addresses every cell by `index/64` and `index%64` only, so
states correspond bijectively.  Fresh Go blocks are zeroed, hence appending a
block appends `64` zeros / `false`s. -/

/-- Block size of the generic component storage (`genericBlockSize = 64`). -/
def blockSize : Nat := 64

structure Pool where
  blocks : Nat
  vals : List Nat
  filled : List Bool
  freeSlots : List Nat
  nextIndex : Nat
deriving DecidableEq, Repr

/-- A freshly constructed `genericComponentStorage` (all fields zero). -/
def emptyPool : Pool := ⟨0, [], [], [], 0⟩

/-- Appending a fresh zeroed block to the block vector
(`cs.blocks = append(cs.blocks, ...)`). -/
def Pool.grow (p : Pool) : Pool :=
  { p with blocks := p.blocks + 1,
           vals := p.vals ++ List.replicate blockSize 0,
           filled := p.filled ++ List.replicate blockSize false }

/-- `Append` for a non-nil item of the pool's type: pop the freelist if
non-empty, else use `nextIndex`, growing the block vector when needed.
Returns the written slot. -/
def Pool.appendVal (p : Pool) (v : Nat) : Pool × Int :=
  match p.freeSlots.getLast? with
  | some i =>
      ({ p with freeSlots := p.freeSlots.dropLast,
                vals := p.vals.set i v,
                filled := p.filled.set i true }, Int.ofNat i)
  | none =>
      let i := p.nextIndex
      let p1 := if p.blocks ≤ i / blockSize then p.grow else p
      ({ p1 with vals := p1.vals.set i v, filled := p1.filled.set i true,
                 nextIndex := i + 1 }, Int.ofNat i)

/-- `Append` on a Go `any` that may be `nil`: the type assertions fail on
`nil` and `-1` is returned without touching the pool. -/
def Pool.appendOpt (p : Pool) (v : Option Nat) : Pool × Int :=
  match v with
  | none => (p, -1)
  | some v => p.appendVal v

/-- `Get`: bounds-check the block index, then the occupancy bit; Go returns a
pointer into the block, modelled by the stored value. -/
def Pool.get (p : Pool) (i : Nat) : Option Nat :=
  if p.blocks ≤ i / blockSize then none
  else if p.filled.getD i false then some (p.vals.getD i 0) else none

/-- `Delete`: clear occupancy, zero the cell, push the slot on the freelist
(only when currently occupied and within the block vector). -/
def Pool.del (p : Pool) (i : Nat) : Pool :=
  if p.blocks ≤ i / blockSize then p
  else if p.filled.getD i false then
    { p with filled := p.filled.set i false, vals := p.vals.set i 0,
             freeSlots := p.freeSlots ++ [i] }
  else p

/-- `Has`: occupancy bit behind the same block-vector bounds check. -/
def Pool.has (p : Pool) (i : Nat) : Bool :=
  if p.blocks ≤ i / blockSize then false else p.filled.getD i false

/-- The ascending list of slots yielded by `Iter` (indices `< nextIndex`
whose block exists and whose occupancy bit is set). -/
def Pool.iterSlots (p : Pool) : List Nat :=
  (List.range p.nextIndex).filter (fun i => p.has i)

/-- Accumulator of the `Compact` copy loop: new values, new occupancy,
`writePos`, and the old-to-new index map (kept as an ascending list; the Go
`map[int]int` has these exact entries and its consumers are insensitive to
iteration order). -/
structure CompactSt where
  nv : List Nat
  nf : List Bool
  wp : Nat
  m : List (Nat × Nat)
deriving DecidableEq, Repr

/-- One iteration of the `Compact` read loop at read index `r`. -/
def Pool.compactStep (p : Pool) (st : CompactSt) (r : Nat) : CompactSt :=
  if p.filled.getD r false then
    ⟨st.nv.set st.wp (p.vals.getD r 0), st.nf.set st.wp true,
     st.wp + 1, st.m ++ [(r, st.wp)]⟩
  else st

/-- `Compact`: if the pool holds no components, reset to a single empty
block; otherwise copy survivors in ascending order into a fresh block vector
of `ceil(total/64)` blocks, returning the old-to-new slot map. -/
def Pool.compact (p : Pool) : Pool × List (Nat × Nat) :=
  let total := p.nextIndex - p.freeSlots.length
  if p.nextIndex = 0 ∨ total = 0 then
    ({ blocks := 1, vals := List.replicate blockSize 0,
       filled := List.replicate blockSize false,
       freeSlots := [], nextIndex := 0 }, [])
  else
    let numNew := (total + blockSize - 1) / blockSize
    let st := (List.range p.nextIndex).foldl p.compactStep
      ⟨List.replicate (blockSize * numNew) 0,
       List.replicate (blockSize * numNew) false, 0, []⟩
    ({ blocks := numNew, vals := st.nv, filled := st.nf,
       freeSlots := [], nextIndex := st.wp }, st.m)

/-! ### Pool well-formedness

`WFlite` holds for every pool the Go code can construct and is preserved by
every pool operation; `WFfull` adds that the freelist lists *all* holes below
`nextIndex`, which the compaction arithmetic relies on. -/

def Pool.WFlite (p : Pool) : Prop :=
  p.vals.length = blockSize * p.blocks ∧
  p.filled.length = blockSize * p.blocks ∧
  p.nextIndex ≤ blockSize * p.blocks ∧
  p.freeSlots.Nodup ∧
  (∀ i ∈ p.freeSlots, i < p.nextIndex ∧ p.filled.getD i false = false) ∧
  (∀ i < p.filled.length, p.filled.getD i false = true → i < p.nextIndex)

def Pool.WFfull (p : Pool) : Prop :=
  p.WFlite ∧ ∀ i < p.nextIndex, p.filled.getD i false = false → i ∈ p.freeSlots

/-- Equality of everything except the stored values; parallel pools of one
archetype always agree on shape. -/
def Pool.ShapeEq (p q : Pool) : Prop :=
  p.blocks = q.blocks ∧ p.filled = q.filled ∧
  p.freeSlots = q.freeSlots ∧ p.nextIndex = q.nextIndex

instance : DecidablePred Pool.WFlite := fun p => by
  unfold Pool.WFlite
  infer_instance

instance : DecidablePred Pool.WFfull := fun p => by
  unfold Pool.WFfull
  infer_instance

instance (p q : Pool) : Decidable (Pool.ShapeEq p q) := by
  unfold Pool.ShapeEq
  infer_instance

/-! ### List access helpers -/

theorem getD_set_self {α : Type} (l : List α) (i : Nat) (v d : α)
    (h : i < l.length) : (l.set i v).getD i d = v := by
  rw [List.getD_eq_getElem?_getD, List.getElem?_set_self']
  simp [List.getElem?_eq_getElem h]

theorem getD_set_ne {α : Type} (l : List α) (i j : Nat) (v d : α) (h : i ≠ j) :
    (l.set i v).getD j d = l.getD j d := by
  rw [List.getD_eq_getElem?_getD, List.getD_eq_getElem?_getD, List.getElem?_set_ne h]

theorem getD_append_left {α : Type} (l l2 : List α) (i : Nat) (d : α) (h : i < l.length) :
    (l ++ l2).getD i d = l.getD i d := by
  rw [List.getD_eq_getElem?_getD, List.getD_eq_getElem?_getD, List.getElem?_append_left h]

theorem getD_of_le_length {α : Type} (l : List α) (i : Nat) (d : α) (h : l.length ≤ i) :
    l.getD i d = d := by
  rw [List.getD_eq_getElem?_getD, List.getElem?_eq_none h]
  rfl

theorem getD_replicate {α : Type} (n i : Nat) (v d : α) :
    (List.replicate n v).getD i d = if i < n then v else d := by
  rw [List.getD_eq_getElem?_getD, List.getElem?_replicate]
  split <;> simp

theorem lt_length_of_getD_true (l : List Bool) (i : Nat) (h : l.getD i false = true) :
    i < l.length := by
  by_contra hc
  rw [getD_of_le_length l i false (Nat.le_of_not_lt hc)] at h
  cases h

/-! ### Pool operation lemmas -/

/-- The slot an `Append` into a pool of this shape will use. -/
def Pool.nextSlot (p : Pool) : Nat :=
  match p.freeSlots.getLast? with
  | some i => i
  | none => p.nextIndex

theorem Pool.shapeEq_refl (p : Pool) : p.ShapeEq p := ⟨rfl, rfl, rfl, rfl⟩

theorem Pool.ShapeEq.symm {p q : Pool} (h : p.ShapeEq q) : q.ShapeEq p := by
  obtain ⟨h1, h2, h3, h4⟩ := h
  exact ⟨h1.symm, h2.symm, h3.symm, h4.symm⟩

theorem Pool.ShapeEq.nextSlot_eq {p q : Pool} (h : p.ShapeEq q) : p.nextSlot = q.nextSlot := by
  obtain ⟨-, -, h3, h4⟩ := h
  unfold Pool.nextSlot
  rw [h3, h4]

/-- The slot an append will write is below `nextIndex`, or the freelist is
empty and it is exactly `nextIndex`. -/
theorem Pool.nextSlot_lt_cap_cases (p : Pool) (h : p.WFlite) :
    p.nextSlot < p.nextIndex ∨
      (p.freeSlots.getLast? = none ∧ p.nextSlot = p.nextIndex) := by
  obtain ⟨-, -, -, -, hfree, -⟩ := h
  unfold Pool.nextSlot
  cases hl : p.freeSlots.getLast? with
  | some i =>
    have hm : i ∈ p.freeSlots := List.mem_of_mem_getLast? hl
    exact Or.inl (hfree i hm).1
  | none => exact Or.inr ⟨rfl, rfl⟩

theorem Pool.nextSlot_le (p : Pool) (h : p.WFlite) : p.nextSlot ≤ p.nextIndex := by
  rcases p.nextSlot_lt_cap_cases h with hlt | ⟨-, he⟩
  · exact le_of_lt hlt
  · exact le_of_eq he

/-- The slot an append will use is a freelist entry or `nextIndex`. -/
theorem Pool.nextSlot_mem_or (p : Pool) :
    p.nextSlot ∈ p.freeSlots ∨ p.nextSlot = p.nextIndex := by
  unfold Pool.nextSlot
  cases hl : p.freeSlots.getLast? with
  | some i => exact Or.inl (List.mem_of_mem_getLast? hl)
  | none => exact Or.inr rfl

theorem Pool.nextSlot_not_filled (p : Pool) (h : p.WFlite) (i : Nat)
    (hi : p.filled.getD i false = true) : p.nextSlot ≠ i := by
  have hidx : i < p.nextIndex := by
    obtain ⟨-, -, -, -, -, hlast⟩ := h
    exact hlast i (lt_length_of_getD_true _ _ hi) hi
  rcases p.nextSlot_mem_or with hm | he
  · intro he
    subst he
    obtain ⟨-, -, -, -, hfree, -⟩ := h
    have := (hfree _ hm).2
    rw [this] at hi
    cases hi
  · omega

theorem Pool.appendVal_snd (p : Pool) (v : Nat) :
    (p.appendVal v).2 = Int.ofNat p.nextSlot := by
  unfold Pool.appendVal Pool.nextSlot
  cases hl : p.freeSlots.getLast? <;> simp

theorem Pool.grow_shapeEq_pair (p q : Pool) (h : p.ShapeEq q) :
    p.grow.ShapeEq q.grow := by
  obtain ⟨h1, h2, h3, h4⟩ := h
  unfold Pool.ShapeEq Pool.grow
  exact ⟨by simp [h1], by simp [h2], by simp [h3], by simp [h4]⟩

theorem Pool.appendVal_shape_pair (p q : Pool) (v w : Nat) (h : p.ShapeEq q) :
    (p.appendVal v).1.ShapeEq (q.appendVal w).1 := by
  have hg := p.grow_shapeEq_pair q h
  obtain ⟨h1, h2, h3, h4⟩ := h
  obtain ⟨g1, g2, g3, g4⟩ := hg
  unfold Pool.ShapeEq Pool.appendVal
  rw [h3, h1, h2, h4]
  cases hl : q.freeSlots.getLast? with
  | some i =>
    dsimp only
    refine ⟨?_, ?_, ?_, ?_⟩ <;> trivial
  | none =>
    dsimp only
    by_cases hc : q.blocks ≤ q.nextIndex / blockSize
    · simp only [if_pos hc]
      refine ⟨?_, ?_, ?_, ?_⟩ <;> first
        | trivial
        | rw [g1]
        | rw [g2]
    · simp only [if_neg hc]
      refine ⟨?_, ?_, ?_, ?_⟩ <;> first
        | trivial
        | exact h1
        | rw [h2]

theorem getD_append_right {α : Type} (l l2 : List α) (i : Nat) (d : α)
    (h : l.length ≤ i) : (l ++ l2).getD i d = l2.getD (i - l.length) d := by
  rw [List.getD_eq_getElem?_getD, List.getD_eq_getElem?_getD, List.getElem?_append_right h]

/-- Growing the block vector appends zeroed cells, so reads through `getD`
are unchanged. -/
theorem Pool.grow_filled_getD (p : Pool) (j : Nat) :
    p.grow.filled.getD j false = p.filled.getD j false := by
  unfold Pool.grow
  dsimp only
  by_cases hj : j < p.filled.length
  · exact getD_append_left _ _ _ _ hj
  · rw [getD_of_le_length p.filled j false (le_of_not_lt hj)]
    by_cases hj2 : j < p.filled.length + blockSize
    · rw [getD_append_right _ _ _ _ (le_of_not_lt hj), getD_replicate]
      split <;> rfl
    · rw [getD_of_le_length]
      simp only [List.length_append, List.length_replicate]
      omega

theorem Pool.grow_vals_getD (p : Pool) (j : Nat) :
    p.grow.vals.getD j 0 = p.vals.getD j 0 := by
  unfold Pool.grow
  dsimp only
  by_cases hj : j < p.vals.length
  · exact getD_append_left _ _ _ _ hj
  · rw [getD_of_le_length p.vals j 0 (le_of_not_lt hj)]
    by_cases hj2 : j < p.vals.length + blockSize
    · rw [getD_append_right _ _ _ _ (le_of_not_lt hj), getD_replicate]
      split <;> rfl
    · rw [getD_of_le_length]
      simp only [List.length_append, List.length_replicate]
      omega

/-- In the no-freelist branch, the write index `nextIndex` lies inside the
(conditionally grown) block vector. -/
theorem Pool.append_write_bound (p : Pool) (h : p.WFlite) :
    p.nextIndex < (if p.blocks ≤ p.nextIndex / blockSize then p.grow else p).filled.length := by
  obtain ⟨hv, hf, hcap, -, -, -⟩ := h
  by_cases hc : p.blocks ≤ p.nextIndex / blockSize
  · rw [if_pos hc]
    unfold Pool.grow
    simp only [List.length_append, List.length_replicate]
    unfold blockSize at *
    omega
  · rw [if_neg hc]
    have hdiv : p.nextIndex / blockSize < p.blocks := Nat.lt_of_not_le hc
    have := (Nat.div_lt_iff_lt_mul (by decide : 0 < blockSize)).mp hdiv
    unfold blockSize at *
    omega

theorem Pool.appendVal_spec (p : Pool) (v : Nat) (h : p.WFlite) :
    (p.appendVal v).2 = Int.ofNat p.nextSlot ∧
    (p.appendVal v).1.filled.getD p.nextSlot false = true ∧
    (p.appendVal v).1.vals.getD p.nextSlot 0 = v ∧
    (∀ j, j ≠ p.nextSlot → (p.appendVal v).1.filled.getD j false = p.filled.getD j false) ∧
    (∀ j, j ≠ p.nextSlot → (p.appendVal v).1.vals.getD j 0 = p.vals.getD j 0) ∧
    (p.appendVal v).1.WFlite := by
  have hwb := p.append_write_bound h
  obtain ⟨hv, hf, hcap, hnd, hfree, hlast⟩ := h
  have hvf : p.vals.length = p.filled.length := by omega
  unfold Pool.appendVal Pool.nextSlot
  cases hl : p.freeSlots.getLast? with
  | some i =>
    have hmem : i ∈ p.freeSlots := List.mem_of_mem_getLast? hl
    have hi : i < p.nextIndex := (hfree i hmem).1
    have hilen : i < p.filled.length := by omega
    have hivlen : i < p.vals.length := by omega
    have hne : p.freeSlots ≠ [] := by
      intro he
      rw [he] at hl
      cases hl
    have hsplit : p.freeSlots.dropLast ++ [p.freeSlots.getLast hne] = p.freeSlots :=
      List.dropLast_append_getLast hne
    have hlastval : p.freeSlots.getLast hne = i := by
      have := List.getLast?_eq_getLast p.freeSlots hne
      rw [hl] at this
      exact (Option.some_injective _ this.symm)
    dsimp only
    refine ⟨rfl, getD_set_self _ _ _ _ hilen, getD_set_self _ _ _ _ hivlen,
      fun j hj => getD_set_ne _ _ _ _ _ (fun he => hj he.symm),
      fun j hj => getD_set_ne _ _ _ _ _ (fun he => hj he.symm), ?_⟩
    have hnotmem : i ∉ p.freeSlots.dropLast := by
      intro hmem2
      have : ¬ p.freeSlots.Nodup := by
        rw [← hsplit, hlastval]
        intro hnd2
        rw [List.nodup_append] at hnd2
        exact hnd2.2.2 hmem2 (List.mem_singleton_self i)
      exact this hnd
    refine ⟨by simpa using hv, by simpa using hf, by simpa using hcap,
      hnd.sublist (List.dropLast_sublist _), ?_, ?_⟩
    · intro j hj
      have hjmem : j ∈ p.freeSlots := List.dropLast_subset _ hj
      have hji : j ≠ i := by
        intro he
        subst he
        exact hnotmem hj
      refine ⟨(hfree j hjmem).1, ?_⟩
      rw [getD_set_ne _ _ _ _ _ (fun he => hji he.symm)]
      exact (hfree j hjmem).2
    · intro j hjlen hjf
      rw [List.length_set] at hjlen
      by_cases hji : j = i
      · subst hji
        exact hi
      · rw [getD_set_ne _ _ _ _ _ (fun he => hji he.symm)] at hjf
        exact hlast j hjlen hjf
  | none =>
    have hfse : p.freeSlots = [] := List.getLast?_eq_none_iff.mp hl
    dsimp only
    have hglen : ∀ q : Pool, q = (if p.blocks ≤ p.nextIndex / blockSize then p.grow else p) →
        q.filled.length = q.vals.length ∧
        q.filled.length = blockSize * q.blocks ∧
        p.nextIndex < q.filled.length ∧
        (∀ j, q.filled.getD j false = p.filled.getD j false) ∧
        (∀ j, q.vals.getD j 0 = p.vals.getD j 0) ∧
        q.freeSlots = p.freeSlots ∧ q.nextIndex = p.nextIndex := by
      intro q hq
      by_cases hc : p.blocks ≤ p.nextIndex / blockSize
      · rw [if_pos hc] at hq
        subst hq
        refine ⟨?_, ?_, ?_, p.grow_filled_getD, p.grow_vals_getD, rfl, rfl⟩
        · unfold Pool.grow
          simp only [List.length_append, List.length_replicate]
          omega
        · unfold Pool.grow
          simp only [List.length_append, List.length_replicate]
          unfold blockSize at *
          omega
        · rw [if_pos hc] at hwb
          exact hwb
      · rw [if_neg hc] at hq
        subst hq
        rw [if_neg hc] at hwb
        exact ⟨by omega, hf, hwb, fun j => rfl, fun j => rfl, rfl, rfl⟩
    obtain ⟨hql, hqb, hqw, hqfg, hqvg, hqfs, hqn⟩ := hglen _ rfl
    refine ⟨rfl, ?_, ?_, ?_, ?_, ?_⟩
    · rw [getD_set_self _ _ _ _ hqw]
    · dsimp only
      rw [getD_set_self]
      omega
    · intro j hj
      rw [getD_set_ne _ _ _ _ _ (fun he => hj he.symm)]
      exact hqfg j
    · intro j hj
      rw [getD_set_ne _ _ _ _ _ (fun he => hj he.symm)]
      exact hqvg j
    · refine ⟨?_, ?_, ?_, ?_, ?_, ?_⟩
      · dsimp only
        simp only [List.length_set]
        omega
      · dsimp only
        simp only [List.length_set]
        omega
      · dsimp only
        omega
      · dsimp only
        rw [hqfs, hfse]
        exact List.nodup_nil
      · intro j hj
        dsimp only at hj
        rw [hqfs, hfse] at hj
        cases hj
      · intro j hjlen hjf
        dsimp only at hjlen hjf ⊢
        simp only [List.length_set] at hjlen
        by_cases hji : j = p.nextIndex
        · omega
        · rw [getD_set_ne _ _ _ _ _ (fun he => hji he.symm), hqfg j] at hjf
          have := hlast j (lt_length_of_getD_true _ _ hjf) hjf
          omega

/-- Reads at an occupied slot of a well-formed pool. -/
theorem Pool.get_eq_of_filled (p : Pool) (i : Nat) (h : p.WFlite)
    (hi : p.filled.getD i false = true) :
    p.get i = some (p.vals.getD i 0) ∧ p.has i = true := by
  obtain ⟨-, hf, hcap, -, -, hlast⟩ := h
  have hlen : i < p.filled.length := lt_length_of_getD_true _ _ hi
  have hnext : i < p.nextIndex := hlast i hlen hi
  have hdiv : i / blockSize < p.blocks := by
    apply (Nat.div_lt_iff_lt_mul (by decide : 0 < blockSize)).mpr
    unfold blockSize at *
    omega
  have hc1 : ¬ (p.blocks ≤ i / blockSize) := Nat.not_le.mpr hdiv
  unfold Pool.get Pool.has
  rw [if_neg hc1, if_neg hc1, if_pos hi]
  exact ⟨rfl, hi⟩

/-- `Delete` at an occupied in-bounds slot takes the real branch. -/
theorem Pool.del_eq_of_filled (p : Pool) (i : Nat) (h : p.WFlite)
    (hi : p.filled.getD i false = true) :
    p.del i = { p with filled := p.filled.set i false, vals := p.vals.set i 0,
                       freeSlots := p.freeSlots ++ [i] } := by
  have hlen : i < p.filled.length := lt_length_of_getD_true _ _ hi
  have hnext : i < p.nextIndex := h.2.2.2.2.2 i hlen hi
  have hdiv : i / blockSize < p.blocks := by
    apply (Nat.div_lt_iff_lt_mul (by decide : 0 < blockSize)).mpr
    have := h.2.2.1
    unfold blockSize at *
    omega
  unfold Pool.del
  rw [if_neg (Nat.not_le.mpr hdiv), if_pos hi]

theorem Pool.del_has_self (p : Pool) (i : Nat) : (p.del i).has i = false := by
  unfold Pool.del Pool.has
  by_cases hb : p.blocks ≤ i / blockSize
  · rw [if_pos hb, if_pos hb]
  · rw [if_neg hb]
    by_cases hfil : p.filled.getD i false
    · rw [if_pos hfil]
      dsimp only
      rw [if_neg hb]
      by_cases hlen : i < p.filled.length
      · rw [getD_set_self _ _ _ _ hlen]
      · rw [getD_of_le_length _ _ _ (by simpa using le_of_not_lt hlen)]
    · rw [if_neg hfil, if_neg hb]
      exact Bool.not_eq_true _ ▸ (Bool.eq_false_iff.mpr (by simpa using hfil))

theorem Pool.del_filled_other (p : Pool) (i j : Nat) (hj : j ≠ i) :
    (p.del i).filled.getD j false = p.filled.getD j false := by
  unfold Pool.del
  by_cases hb : p.blocks ≤ i / blockSize
  · rw [if_pos hb]
  · rw [if_neg hb]
    by_cases hfil : p.filled.getD i false
    · rw [if_pos hfil]
      exact getD_set_ne _ _ _ _ _ (fun he => hj he.symm)
    · rw [if_neg hfil]

theorem Pool.del_vals_other (p : Pool) (i j : Nat) (hj : j ≠ i) :
    (p.del i).vals.getD j 0 = p.vals.getD j 0 := by
  unfold Pool.del
  by_cases hb : p.blocks ≤ i / blockSize
  · rw [if_pos hb]
  · rw [if_neg hb]
    by_cases hfil : p.filled.getD i false
    · rw [if_pos hfil]
      exact getD_set_ne _ _ _ _ _ (fun he => hj he.symm)
    · rw [if_neg hfil]

theorem Pool.del_WFlite (p : Pool) (i : Nat) (h : p.WFlite) : (p.del i).WFlite := by
  obtain ⟨hv, hf, hcap, hnd, hfree, hlast⟩ := h
  unfold Pool.del
  by_cases hb : p.blocks ≤ i / blockSize
  · rw [if_pos hb]
    exact ⟨hv, hf, hcap, hnd, hfree, hlast⟩
  · rw [if_neg hb]
    by_cases hfil : p.filled.getD i false
    · rw [if_pos hfil]
      have hlen : i < p.filled.length := lt_length_of_getD_true _ _ hfil
      have hnext : i < p.nextIndex := hlast i hlen hfil
      have hmem : i ∉ p.freeSlots := by
        intro hm
        have := (hfree i hm).2
        rw [this] at hfil
        cases hfil
      refine ⟨by simpa using hv, by simpa using hf, hcap, ?_, ?_, ?_⟩
      · rw [List.nodup_append]
        exact ⟨hnd, List.nodup_singleton i, by
          intro a ha hb2
          rw [List.mem_singleton] at hb2
          subst hb2
          exact hmem ha⟩
      · intro j hjm
        rw [List.mem_append, List.mem_singleton] at hjm
        rcases hjm with hjm | hjm
        · refine ⟨(hfree j hjm).1, ?_⟩
          by_cases hji : j = i
          · subst hji
            rw [getD_set_self _ _ _ _ hlen]
          · rw [getD_set_ne _ _ _ _ _ (fun he => hji he.symm)]
            exact (hfree j hjm).2
        · subst hjm
          exact ⟨hnext, getD_set_self _ _ _ _ hlen⟩
      · intro j hjlen hjf
        rw [List.length_set] at hjlen
        by_cases hji : j = i
        · subst hji
          exact hnext
        · rw [getD_set_ne _ _ _ _ _ (fun he => hji he.symm)] at hjf
          exact hlast j hjlen hjf
    · rw [if_neg hfil]
      exact ⟨hv, hf, hcap, hnd, hfree, hlast⟩

theorem Pool.del_shape_pair (p q : Pool) (i : Nat) (h : p.ShapeEq q) :
    (p.del i).ShapeEq (q.del i) := by
  obtain ⟨h1, h2, h3, h4⟩ := h
  unfold Pool.del Pool.ShapeEq
  rw [h1, h2, h3]
  by_cases hb : q.blocks ≤ i / blockSize
  · rw [if_pos hb, if_pos hb]
    exact ⟨h1, h2, h3, h4⟩
  · rw [if_neg hb, if_neg hb]
    by_cases hfil : q.filled.getD i false
    · rw [if_pos hfil, if_pos hfil]
      exact ⟨rfl, rfl, rfl, h4⟩
    · rw [if_neg hfil, if_neg hfil]
      exact ⟨h1, h2, h3, h4⟩

/-! ## Archetype (`ecs/archetype.go`)

`refs` is the `intmap.Map[EntityId, weak.Pointer[EntityRef]]`; weak pointers
are modelled as always alive (numeric ref-heap identities), per the module
comment. -/

structure Archetype where
  aid : List Nat
  types : List Nat
  storages : List Pool
  refs : List (EntityId × Nat)
deriving DecidableEq, Repr

/-- `NewArchetype`: one fresh pool per type.  The registry is modelled as
total (the claims never exercise the unregistered-type panic). -/
def newArchetype (k : List Nat) : Archetype :=
  ⟨k, k, k.map (fun _ => emptyPool), []⟩

/-- The inner loop of `Archetype.Spawn` for one component: walk the type
list and append into every pool whose type matches, threading the
`storagePos` variable (which is only overwritten at matches). -/
def spawnInto (c : CompV) : List Nat → List Pool → Int → (List Pool × Int)
  | [], ps, pos => (ps, pos)
  | _ :: _, [], pos => ([], pos)
  | t :: ts, p :: ps, pos =>
    if t = c.typ then
      let pr := p.appendOpt c.val
      let rest := spawnInto c ts ps pr.2
      (pr.1 :: rest.1, rest.2)
    else
      let rest := spawnInto c ts ps pos
      (p :: rest.1, rest.2)

/-- `Archetype.Spawn`: append each supplied component into the pools of its
type; the returned storage position is the last append's result (the shared
`storagePos` variable, initially `0`). -/
def Archetype.spawn (a : Archetype) (comps : List CompV) : Archetype × Int :=
  let r := comps.foldl (fun (st : List Pool × Int) c => spawnInto c a.types st.1 st.2)
    (a.storages, 0)
  ({ a with storages := r.1 }, r.2)

/-- `Archetype.GetComponent`: find the first pool of the type, read the slot;
`none` when the type is absent (Go returns `nil`). -/
def Archetype.getComponent (a : Archetype) (idx : Nat) (t : Nat) : Option Nat :=
  match a.types.findIdx? (fun u => u = t) with
  | none => none
  | some j => (a.storages.getD j emptyPool).get idx

/-- `Archetype.HasComponent`: membership in the type list; slot occupancy is
never consulted. -/
def Archetype.hasComponent (a : Archetype) (t : Nat) : Bool :=
  a.types.contains t

/-! ## Storage (`ecs/storage.go`, with singletons from `unnamed/part_005`)

Pointer mutation of archetypes and `EntityRef` objects is modelled by
threading every access through the archetype map / ref heap, in the exact
order the Go statements execute; this keeps the semantics right even when the
"old" and "new" archetype of a migration are the same object. -/

structure Storage where
  archetypes : List (List Nat × Archetype)
  refHeap : List (Nat × EntityRefData)
  nextRefId : Nat
  singletons : List (Nat × Nat)
  cells : List (Nat × Nat)
  nextCell : Nat
deriving DecidableEq, Repr

/-- `NewStorage`. -/
def emptyStorage : Storage := ⟨[], [], 0, [], [], 0⟩

/-- The sorted type list (`sort.Sort(byTypeName)`); sorted permutations are
unique, so insertion sort is the Go sort up to this uniqueness. -/
def sortTypes (l : List Nat) : List Nat :=
  l.insertionSort (· ≤ ·)

/-- `Archetype.Delete` at storage level: zero the registered `EntityRef` (if
any), drop the weak-table entry, and delete the slot in every pool.  The
entity id is rebuilt from the archetype's own id, as in the Go code. -/
def Storage.archDelete (s : Storage) (k : List Nat) (idx : Nat) : Storage :=
  match alGet s.archetypes k with
  | none => s
  | some a =>
    let eid : EntityId := ⟨a.aid, idx⟩
    let hr := match alGet a.refs eid with
      | some rid => (alSet s.refHeap rid ⟨zeroId, none⟩, alErase a.refs eid)
      | none => (s.refHeap, a.refs)
    { s with refHeap := hr.1,
             archetypes := alSet s.archetypes k
               { a with refs := hr.2,
                        storages := a.storages.map (fun p => p.del idx) } }

/-- Update the weak-ref table of the archetype stored at key `k` (no-op when
the archetype is absent). -/
def Storage.mapRefs (s : Storage) (k : List Nat)
    (f : List (EntityId × Nat) → List (EntityId × Nat)) : Storage :=
  match alGet s.archetypes k with
  | none => s
  | some a => { s with archetypes := alSet s.archetypes k { a with refs := f a.refs } }

/-- `Storage.Spawn` on already-typed component values.  Spawning without
components panics in Go; the model returns the zero id and leaves the store
unchanged (theorems never take this branch). -/
def Storage.spawn (s : Storage) (comps : List (Nat × Nat)) : Storage × EntityId :=
  if comps = [] then (s, zeroId)
  else
    let types := sortTypes (comps.map (fun c => c.1))
    let s1 := if (alGet s.archetypes types).isSome then s
      else { s with archetypes := alSet s.archetypes types (newArchetype types) }
    let a := (alGet s1.archetypes types).getD (newArchetype types)
    let r := a.spawn (comps.map (fun c => ⟨c.1, some c.2⟩))
    ({ s1 with archetypes := alSet s1.archetypes types r.1 }, ⟨types, u32 r.2⟩)

/-- `Storage.Delete`: no-op when the archetype is unknown. -/
def Storage.delete (s : Storage) (id : EntityId) : Storage :=
  match alGet s.archetypes id.arch with
  | none => s
  | some _ => s.archDelete id.arch id.idx

/-- `Storage.AddComponent`.  A missing source archetype is a nil-pointer
panic in Go; the model returns the zero id (theorems never take this
branch). -/
def Storage.addComponent (s : Storage) (id : EntityId) (t v : Nat) : Storage × EntityId :=
  match alGet s.archetypes id.arch with
  | none => (s, zeroId)
  | some oldA =>
    let newTypes := sortTypes (oldA.types ++ [t])
    let s1 := if (alGet s.archetypes newTypes).isSome then s
      else { s with archetypes := alSet s.archetypes newTypes (newArchetype newTypes) }
    let hasRef := alGet oldA.refs id
    let comps := newTypes.map (fun u =>
      if u = t then CompV.mk u (some v) else CompV.mk u (oldA.getComponent id.idx u))
    let aDst := (alGet s1.archetypes newTypes).getD (newArchetype newTypes)
    let r := aDst.spawn comps
    let newId : EntityId := ⟨newTypes, u32 r.2⟩
    let s2 := { s1 with archetypes := alSet s1.archetypes newTypes r.1 }
    let s3 := match hasRef with
      | some rid =>
          let s2a := { s2 with refHeap := alSet s2.refHeap rid ⟨newId, some newTypes⟩ }
          let s2b := s2a.mapRefs id.arch (fun rs => alErase rs id)
          s2b.mapRefs newTypes (fun rs => alSet rs newId rid)
      | none => s2
    (s3.archDelete id.arch id.idx, newId)

/-- `Storage.RemoveComponent`: filter the type out; when nothing remains,
zero the ref, delete the slot, and return id `0` without touching the
archetype map. -/
def Storage.removeComponent (s : Storage) (id : EntityId) (t : Nat) : Storage × EntityId :=
  match alGet s.archetypes id.arch with
  | none => (s, zeroId)
  | some oldA =>
    let newTypes := oldA.types.filter (fun u => decide (u ≠ t))
    let hasRef := alGet oldA.refs id
    if newTypes = [] then
      let s1 := match hasRef with
        | some rid =>
            let sa := { s with refHeap := alSet s.refHeap rid ⟨zeroId, none⟩ }
            sa.mapRefs id.arch (fun rs => alErase rs id)
        | none => s
      (s1.archDelete id.arch id.idx, zeroId)
    else
      let s1 := if (alGet s.archetypes newTypes).isSome then s
        else { s with archetypes := alSet s.archetypes newTypes (newArchetype newTypes) }
      let comps := newTypes.map (fun u => CompV.mk u (oldA.getComponent id.idx u))
      let aDst := (alGet s1.archetypes newTypes).getD (newArchetype newTypes)
      let r := aDst.spawn comps
      let newId : EntityId := ⟨newTypes, u32 r.2⟩
      let s2 := { s1 with archetypes := alSet s1.archetypes newTypes r.1 }
      let s3 := match hasRef with
        | some rid =>
            let s2a := { s2 with refHeap := alSet s2.refHeap rid ⟨newId, some newTypes⟩ }
            let s2b := s2a.mapRefs id.arch (fun rs => alErase rs id)
            s2b.mapRefs newTypes (fun rs => alSet rs newId rid)
        | none => s2
      (s3.archDelete id.arch id.idx, newId)

/-- `Storage.GetComponent`. -/
def Storage.getComponent (s : Storage) (id : EntityId) (t : Nat) : Option Nat :=
  match alGet s.archetypes id.arch with
  | none => none
  | some a => a.getComponent id.idx t

/-- `Storage.HasComponent`. -/
def Storage.hasComponent (s : Storage) (id : EntityId) (t : Nat) : Bool :=
  match alGet s.archetypes id.arch with
  | none => false
  | some a => a.hasComponent t

/-- Whether the slot named by an id is occupied (first pool's occupancy, as
`Storage.CollectStats` and `Archetype.Iter` count entities). -/
def Storage.isAlive (s : Storage) (id : EntityId) : Bool :=
  match alGet s.archetypes id.arch with
  | none => false
  | some a =>
    match a.storages with
    | [] => false
    | p :: _ => p.has id.idx

/-- `Storage.CreateEntityRef`: `none` when the archetype is absent, the
registered ref when one exists (weak pointers always alive in the model),
a fresh heap object otherwise. -/
def Storage.createEntityRef (s : Storage) (id : EntityId) : Storage × Option Nat :=
  match alGet s.archetypes id.arch with
  | none => (s, none)
  | some a =>
    match alGet a.refs id with
    | some rid => (s, some rid)
    | none =>
      let rid := s.nextRefId
      ({ s with refHeap := alSet s.refHeap rid ⟨id, some id.arch⟩,
                archetypes := alSet s.archetypes id.arch
                  { a with refs := alSet a.refs id rid },
                nextRefId := rid + 1 }, some rid)

/-- `Storage.ResolveEntityRef`: `(0, false)` on a nil ref or a zeroed id,
else the ref's current id with `true`. -/
def Storage.resolveEntityRef (s : Storage) (r : Option Nat) : EntityId × Bool :=
  match r with
  | none => (zeroId, false)
  | some rid =>
    match alGet s.refHeap rid with
    | none => (zeroId, false)
    | some d => if d.id = zeroId then (zeroId, false) else (d.id, true)

/-- `Storage.AddSingleton` (`unnamed/part_005`): always allocate a fresh
cell, copy the value in, and (re)point the singleton entry at it.  Returns
the cell address. -/
def Storage.addSingleton (s : Storage) (t v : Nat) : Storage × Nat :=
  let addr := s.nextCell
  ({ s with cells := alSet s.cells addr v,
            singletons := alSet s.singletons t addr,
            nextCell := addr + 1 }, addr)

/-- `Storage.getSingletonEntry`: the current cell address for a type. -/
def Storage.getSingletonEntry (s : Storage) (t : Nat) : Option Nat :=
  alGet s.singletons t

/-- Value stored at a cell address. -/
def Storage.cellValue (s : Storage) (addr : Nat) : Nat :=
  (alGet s.cells addr).getD 0

/-- The `Singleton[T]` accessor state: component type and cached cell
pointer. -/
structure SingletonAcc where
  typ : Nat
  ptr : Nat
deriving DecidableEq, Repr

/-- `Singleton.Init` (`ecs/singleton.go`): ensure the singleton exists
(adding a zero value when missing) and cache the entry's `dataPtr`. -/
def singletonInit (s : Storage) (t : Nat) : Storage × SingletonAcc :=
  match s.getSingletonEntry t with
  | some addr => (s, ⟨t, addr⟩)
  | none =>
    let r := s.addSingleton t 0
    (r.1, ⟨t, r.2⟩)

/-- `Singleton.Get` (`ecs/singleton.go`): returns the cached pointer,
without consulting the storage again. -/
def SingletonAcc.get (acc : SingletonAcc) : Nat :=
  acc.ptr

/-- `Archetype.Compact` at storage level: compact the first pool for the
canonical index map, compact the rest, then rewrite each still-registered
`EntityRef` to its new index and rebuild the weak table with only the
updated entries. -/
def Storage.compactArchetype (s : Storage) (k : List Nat) : Storage :=
  match alGet s.archetypes k with
  | none => s
  | some a =>
    match h : a.storages with
    | [] => s
    | p0 :: rest =>
      let c0 := p0.compact
      let storages1 := c0.1 :: rest.map (fun p => (p.compact).1)
      let upd := c0.2.foldl
        (fun (acc : List (Nat × EntityRefData) × List (EntityId × Nat)) om =>
          match alGet a.refs ⟨a.aid, om.1⟩ with
          | some rid =>
              (alSet acc.1 rid ⟨⟨a.aid, om.2⟩, some a.aid⟩,
               acc.2 ++ [(⟨a.aid, om.2⟩, rid)])
          | none => acc)
        (s.refHeap, [])
      { s with refHeap := upd.1,
               archetypes := alSet s.archetypes k
                 { a with storages := storages1, refs := upd.2 } }

/-! ## Commands (`unnamed/part_013`, first section)

The four structural command lists; `defers` wrap arbitrary user closures and
are outside a shallow embedding (no claim concerns them).  `Flush`'s
`resolveId` follows the `movedEntities` chain in an unbounded loop; in the
model it carries fuel `length moved + 1`.  A chain over an acyclic map
visits pairwise distinct keys, so this fuel suffices exactly when the Go
loop terminates; fuel exhaustion (`none`) happens exactly when the walk
revisits a key, i.e. when the Go loop runs forever. -/

structure Commands where
  spawns : List (List (Nat × Nat))
  deletes : List EntityId
  adds : List (EntityId × Nat × Nat)
  removes : List (EntityId × Nat)
deriving DecidableEq, Repr

/-- The `resolveId` chase with explicit fuel. -/
def resolveFuel (moved : List (EntityId × EntityId)) : Nat → EntityId → Option EntityId
  | 0, _ => none
  | n + 1, id =>
    match alGet moved id with
    | some nid => resolveFuel moved n nid
    | none => some id

/-- `resolveId` as used by `Flush`; `none` models the Go loop diverging. -/
def resolveId (moved : List (EntityId × EntityId)) (id : EntityId) : Option EntityId :=
  resolveFuel moved (moved.length + 1) id

/-- Delete phase of `Flush`: resolve, delete, and mark both the recorded and
the resolved id deleted. -/
def runDeletes (moved : List (EntityId × EntityId)) :
    List EntityId → Storage → List EntityId → Option (Storage × List EntityId)
  | [], s, deleted => some (s, deleted)
  | e :: rest, s, deleted =>
    match resolveId moved e with
    | none => none
    | some cur => runDeletes moved rest (s.delete cur) (deleted ++ [e, cur])

/-- Remove phase of `Flush`: resolve through the rename chain, skip deleted
entities, record renames, and mark entities deleted when removal returned
id `0`. -/
def runRemoves :
    List (EntityId × Nat) → Storage → List EntityId → List (EntityId × EntityId) →
    Option (Storage × List EntityId × List (EntityId × EntityId))
  | [], s, deleted, moved => some (s, deleted, moved)
  | (e, t) :: rest, s, deleted, moved =>
    match resolveId moved e with
    | none => none
    | some cur =>
      if cur ∈ deleted then runRemoves rest s deleted moved
      else
        let r := s.removeComponent cur t
        if r.2 ≠ zeroId ∧ r.2 ≠ cur then
          runRemoves rest r.1 deleted (alSet moved cur r.2)
        else if r.2 = zeroId then
          runRemoves rest r.1 (deleted ++ [cur, e]) moved
        else
          runRemoves rest r.1 deleted moved

/-- Add phase of `Flush`: resolve through the rename chain, skip deleted
entities, record renames. -/
def runAdds :
    List (EntityId × Nat × Nat) → Storage → List EntityId → List (EntityId × EntityId) →
    Option (Storage × List EntityId × List (EntityId × EntityId))
  | [], s, deleted, moved => some (s, deleted, moved)
  | (e, t, v) :: rest, s, deleted, moved =>
    match resolveId moved e with
    | none => none
    | some cur =>
      if cur ∈ deleted then runAdds rest s deleted moved
      else
        let r := s.addComponent cur t v
        if r.2 ≠ cur then runAdds rest r.1 deleted (alSet moved cur r.2)
        else runAdds rest r.1 deleted moved

/-- `Commands.Flush`: deletes, then removes, then adds, then spawns (defer
closures are outside the model); `none` when a `resolveId` chase diverges. -/
def Commands.flush (c : Commands) (s : Storage) : Option Storage :=
  match runDeletes [] c.deletes s [] with
  | none => none
  | some (s1, deleted) =>
    match runRemoves c.removes s1 deleted [] with
    | none => none
    | some (s2, deleted2, moved2) =>
      match runAdds c.adds s2 deleted2 moved2 with
      | none => none
      | some (s3, _, _) =>
        some (c.spawns.foldl (fun st cs => (st.spawn cs).1) s3)

/-! ## Operation sequences -/

/-- One user-level structural operation applied to a tracked entity. -/
inductive EntOp where
  | addC (t v : Nat)
  | removeC (t : Nat)
deriving DecidableEq, Repr

def applyEntOp (s : Storage) (id : EntityId) : EntOp → Storage × EntityId
  | .addC t v => s.addComponent id t v
  | .removeC t => s.removeComponent id t

def applyEntOps : List EntOp → Storage → EntityId → Storage × EntityId
  | [], s, id => (s, id)
  | op :: rest, s, id =>
    let r := applyEntOp s id op
    applyEntOps rest r.1 r.2

/-- Whether one operation on the tracked entity stays inside defined
behaviour and keeps the entity alive: the entity's archetype exists, an
added type is not already present (the spec declares adding a present type
undefined), and a removal leaves at least one type. -/
def entOpOk (s : Storage) (id : EntityId) : EntOp → Bool
  | .addC t _ =>
    match alGet s.archetypes id.arch with
    | some a => decide (t ∉ a.types)
    | none => false
  | .removeC t =>
    match alGet s.archetypes id.arch with
    | some a => decide (a.types.filter (fun u => decide (u ≠ t)) ≠ [])
    | none => false

/-- A whole sequence of defined operations that leaves the entity alive at
every step. -/
def aliveRun : List EntOp → Storage → EntityId → Bool
  | [], _, _ => true
  | op :: rest, s, id =>
    entOpOk s id op && (aliveRun rest (applyEntOp s id op).1 (applyEntOp s id op).2)

/-- One storage-level operation, for the archetype-map monotonicity claim. -/
inductive StorageOp where
  | spawnOp (comps : List (Nat × Nat))
  | deleteOp (id : EntityId)
  | addOp (id : EntityId) (t v : Nat)
  | removeOp (id : EntityId) (t : Nat)
  | compactOp (k : List Nat)
deriving DecidableEq, Repr

def applyStorageOp (s : Storage) : StorageOp → Storage
  | .spawnOp comps => (s.spawn comps).1
  | .deleteOp id => s.delete id
  | .addOp id t v => (s.addComponent id t v).1
  | .removeOp id t => (s.removeComponent id t).1
  | .compactOp k => s.compactArchetype k

def applyStorageOps (s : Storage) : List StorageOp → Storage
  | [] => s
  | op :: rest => applyStorageOps (applyStorageOp s op) rest

/-! ## Well-formedness -/

/-- Archetype well-formedness: non-empty sorted duplicate-free type list,
one pool per type, every pool well formed, and all pools sharing one
shape.  All archetypes a program builds through the defined `Storage`
surface satisfy this. -/
def Archetype.WF (a : Archetype) : Prop :=
  a.types ≠ [] ∧
  a.types.Sorted (· ≤ ·) ∧
  a.types.Nodup ∧
  a.storages.length = a.types.length ∧
  (∀ p ∈ a.storages, p.WFlite) ∧
  (∀ p ∈ a.storages, ∀ q ∈ a.storages, p.ShapeEq q)

/-- Storage well-formedness: every archetype is stored under its own id,
its type list is the key, and it is well formed. -/
def Storage.WF (s : Storage) : Prop :=
  ∀ e ∈ s.archetypes, e.2.aid = e.1 ∧ e.2.types = e.1 ∧ e.2.WF

/-- The tracked-reference invariant for one live entity: its archetype is in
the map, its slot is occupied in every pool, the weak table registers the
ref id under the entity's current id, and the ref object holds that id. -/
def Storage.Tracks (s : Storage) (id : EntityId) (rid : Nat) : Prop :=
  ∃ a, alGet s.archetypes id.arch = some a ∧
    (∀ p ∈ a.storages, p.filled.getD id.idx false = true) ∧
    alGet a.refs id = some rid ∧
    alGet s.refHeap rid = some ⟨id, some id.arch⟩

instance : DecidablePred Archetype.WF := fun a => by
  unfold Archetype.WF
  have : Decidable (a.types.Sorted (· ≤ ·)) := List.decidableSorted a.types
  infer_instance

instance : DecidablePred Storage.WF := fun s => by
  unfold Storage.WF
  infer_instance

instance (s : Storage) (id : EntityId) (rid : Nat) : Decidable (s.Tracks id rid) :=
  match ha : alGet s.archetypes id.arch with
  | some a =>
    decidable_of_iff ((∀ p ∈ a.storages, p.filled.getD id.idx false = true) ∧
        alGet a.refs id = some rid ∧
        alGet s.refHeap rid = some ⟨id, some id.arch⟩)
      (by
        constructor
        · rintro ⟨h1, h2, h3⟩
          exact ⟨a, ha, h1, h2, h3⟩
        · rintro ⟨b, hb, h1, h2, h3⟩
          rw [ha] at hb
          cases hb
          exact ⟨h1, h2, h3⟩)
  | none =>
    isFalse (by
      rintro ⟨a, hb, -⟩
      rw [ha] at hb
      cases hb)

/-! ## Supporting lemmas for the archetype-map monotonicity claim -/

/-- One archetype map extends another: lookups that succeeded still succeed
and the entry count has not shrunk. -/
def MapExtends (m m' : List (List Nat × Archetype)) : Prop :=
  (∀ k, (alGet m k).isSome → (alGet m' k).isSome) ∧ m.length ≤ m'.length

theorem MapExtends.refl (m : List (List Nat × Archetype)) : MapExtends m m :=
  ⟨fun _ h => h, le_rfl⟩

theorem MapExtends.trans {m1 m2 m3 : List (List Nat × Archetype)}
    (h1 : MapExtends m1 m2) (h2 : MapExtends m2 m3) : MapExtends m1 m3 :=
  ⟨fun k hk => h2.1 k (h1.1 k hk), le_trans h1.2 h2.2⟩

theorem mapExtends_alSet (m : List (List Nat × Archetype)) (k : List Nat) (a : Archetype) :
    MapExtends m (alSet m k a) :=
  ⟨fun k' hk' => isSome_alGet_alSet m k k' a hk', length_alSet_ge m k a⟩

theorem mapExtends_archDelete (s : Storage) (k : List Nat) (idx : Nat) :
    MapExtends s.archetypes (s.archDelete k idx).archetypes := by
  unfold Storage.archDelete
  cases alGet s.archetypes k with
  | none => exact MapExtends.refl _
  | some a => exact mapExtends_alSet _ _ _

theorem mapExtends_mapRefs (s : Storage) (k : List Nat)
    (f : List (EntityId × Nat) → List (EntityId × Nat)) :
    MapExtends s.archetypes (s.mapRefs k f).archetypes := by
  unfold Storage.mapRefs
  cases alGet s.archetypes k with
  | none => exact MapExtends.refl _
  | some a => exact mapExtends_alSet _ _ _

theorem mapExtends_spawn (s : Storage) (comps : List (Nat × Nat)) :
    MapExtends s.archetypes (s.spawn comps).1.archetypes := by
  unfold Storage.spawn
  by_cases hc : comps = []
  · rw [if_pos hc]
    exact MapExtends.refl _
  · rw [if_neg hc]
    dsimp only
    split
    · exact mapExtends_alSet _ _ _
    · exact (mapExtends_alSet _ _ _).trans (mapExtends_alSet _ _ _)

theorem mapExtends_delete (s : Storage) (id : EntityId) :
    MapExtends s.archetypes (s.delete id).archetypes := by
  unfold Storage.delete
  cases alGet s.archetypes id.arch with
  | none => exact MapExtends.refl _
  | some a => exact mapExtends_archDelete _ _ _

theorem mapExtends_addComponent (s : Storage) (id : EntityId) (t v : Nat) :
    MapExtends s.archetypes (s.addComponent id t v).1.archetypes := by
  unfold Storage.addComponent
  cases alGet s.archetypes id.arch with
  | none => exact MapExtends.refl _
  | some oldA =>
    dsimp only
    refine MapExtends.trans ?_ (mapExtends_archDelete _ _ _)
    cases alGet oldA.refs id with
    | some rid =>
      dsimp only
      refine MapExtends.trans ?_ (mapExtends_mapRefs _ _ _)
      refine MapExtends.trans ?_ (mapExtends_mapRefs _ _ _)
      refine MapExtends.trans ?_ (mapExtends_alSet _ _ _)
      split
      · exact MapExtends.refl _
      · exact mapExtends_alSet _ _ _
    | none =>
      dsimp only
      refine MapExtends.trans ?_ (mapExtends_alSet _ _ _)
      split
      · exact MapExtends.refl _
      · exact mapExtends_alSet _ _ _

theorem mapExtends_removeComponent (s : Storage) (id : EntityId) (t : Nat) :
    MapExtends s.archetypes (s.removeComponent id t).1.archetypes := by
  unfold Storage.removeComponent
  cases alGet s.archetypes id.arch with
  | none => exact MapExtends.refl _
  | some oldA =>
    dsimp only
    split
    · refine MapExtends.trans ?_ (mapExtends_archDelete _ _ _)
      cases alGet oldA.refs id with
      | some rid =>
        dsimp only
        exact mapExtends_mapRefs
          { s with refHeap := alSet s.refHeap rid ⟨zeroId, none⟩ } id.arch
          (fun rs => alErase rs id)
      | none => exact MapExtends.refl _
    · refine MapExtends.trans ?_ (mapExtends_archDelete _ _ _)
      cases alGet oldA.refs id with
      | some rid =>
        dsimp only
        refine MapExtends.trans ?_ (mapExtends_mapRefs _ _ _)
        refine MapExtends.trans ?_ (mapExtends_mapRefs _ _ _)
        refine MapExtends.trans ?_ (mapExtends_alSet _ _ _)
        split
        · exact MapExtends.refl _
        · exact mapExtends_alSet _ _ _
      | none =>
        dsimp only
        refine MapExtends.trans ?_ (mapExtends_alSet _ _ _)
        split
        · exact MapExtends.refl _
        · exact mapExtends_alSet _ _ _

theorem mapExtends_compactArchetype (s : Storage) (k : List Nat) :
    MapExtends s.archetypes (s.compactArchetype k).archetypes := by
  unfold Storage.compactArchetype
  cases alGet s.archetypes k with
  | none => exact MapExtends.refl _
  | some a =>
    dsimp only
    split
    · exact MapExtends.refl _
    · exact mapExtends_alSet _ _ _

theorem mapExtends_applyStorageOp (s : Storage) (op : StorageOp) :
    MapExtends s.archetypes (applyStorageOp s op).archetypes := by
  cases op with
  | spawnOp comps => exact mapExtends_spawn s comps
  | deleteOp id => exact mapExtends_delete s id
  | addOp id t v => exact mapExtends_addComponent s id t v
  | removeOp id t => exact mapExtends_removeComponent s id t
  | compactOp k => exact mapExtends_compactArchetype s k

/-! ## Claim theorems -/

/-- C9: no Storage operation ever removes an archetype from the archetype
map.  Over any sequence of spawn, delete, add-component, remove-component
(including removal of the last component) and compaction operations, every
archetype key present before is still present afterwards, and the archetype
count is monotonically non-decreasing — which is why a query cache rebuilt
only when the count changes always reflects the true archetype set. -/
theorem archetype_map_monotone (s : Storage) (ops : List StorageOp) :
    (∀ k, (alGet s.archetypes k).isSome →
      (alGet (applyStorageOps s ops).archetypes k).isSome) ∧
    s.archetypes.length ≤ (applyStorageOps s ops).archetypes.length := by
  induction ops generalizing s with
  | nil => exact ⟨fun _ h => h, le_rfl⟩
  | cons op rest ih =>
    have h1 := mapExtends_applyStorageOp s op
    have h2 := ih (applyStorageOp s op)
    exact ⟨fun k hk => h2.1 k (h1.1 k hk),
      le_trans h1.2 h2.2⟩

/-- C10: `has_component` consults only the archetype half of the id and the
archetype's type membership — never the slot's occupancy.  Whenever the id's
archetype half maps to an archetype whose type list contains `t`, it returns
true for any slot half, deleted entities included. -/
theorem hasComponent_ignores_slot (s : Storage) (k : List Nat) (idx t : Nat)
    (ha : (alGet s.archetypes k).isSome)
    (ht : t ∈ ((alGet s.archetypes k).getD (newArchetype [])).types) :
    s.hasComponent ⟨k, idx⟩ t = true := by
  unfold Storage.hasComponent
  obtain ⟨a, haa⟩ := Option.isSome_iff_exists.mp ha
  rw [haa] at ht ⊢
  dsimp only
  unfold Archetype.hasComponent
  simpa using ht

/-- Witness for C10 at a concrete store: the entity at slot 0 of the
two-component archetype has been deleted, yet `has_component` still answers
true for it. -/
theorem hasComponent_ignores_slot_witness :
    ((emptyStorage.spawn [(0, 5), (1, 7)]).1.delete ⟨[0, 1], 0⟩).hasComponent ⟨[0, 1], 0⟩ 1
        = true ∧
    ((emptyStorage.spawn [(0, 5), (1, 7)]).1.delete ⟨[0, 1], 0⟩).isAlive ⟨[0, 1], 0⟩
        = false :=
  ⟨hasComponent_ignores_slot _ [0, 1] 0 1 (by decide) (by decide), by decide⟩

theorem alGet_mem {κ ν : Type} [DecidableEq κ] (l : List (κ × ν)) (k : κ) (v : ν)
    (h : alGet l k = some v) : (k, v) ∈ l := by
  induction l with
  | nil => cases h
  | cons e rest ih =>
    obtain ⟨k0, v0⟩ := e
    rw [alGet_cons] at h
    by_cases hk : k0 = k
    · rw [if_pos hk] at h
      cases h
      subst hk
      exact List.mem_cons_self _ _
    · rw [if_neg hk] at h
      exact List.mem_cons_of_mem _ (ih h)

theorem isSome_alGet_alSet_eq {κ ν : Type} [DecidableEq κ] (l : List (κ × ν)) (k k' : κ)
    (v : ν) (h : (alGet l k).isSome) :
    (alGet (alSet l k v) k').isSome = (alGet l k').isSome := by
  by_cases hk : k = k'
  · subst hk
    rw [alGet_alSet_self]
    simpa using h
  · rw [alGet_alSet_ne _ _ _ _ hk]

/-- After `Storage.Delete`, the deleted id's slot is unoccupied. -/
theorem isAlive_delete_self (s : Storage) (e : EntityId) :
    (s.delete e).isAlive e = false := by
  unfold Storage.delete
  cases h : alGet s.archetypes e.arch with
  | none =>
    unfold Storage.isAlive
    rw [h]
  | some a =>
    unfold Storage.archDelete
    rw [h]
    dsimp only
    unfold Storage.isAlive
    dsimp only
    rw [alGet_alSet_self]
    dsimp only
    cases hs : a.storages with
    | nil => rfl
    | cons p rest =>
      dsimp only [List.map]
      exact p.del_has_self e.idx

/-- C3: a `Commands` buffer that records a delete of id `e` and an
add-component on the same raw `e` flushes to exactly the delete: the add is
skipped (its target is in the deleted set), no entity exists at `e`
afterwards, and no entity is created by the skipped add. -/
theorem flush_delete_beats_add (s : Storage) (e : EntityId) (t v : Nat) :
    Commands.flush ⟨[], [e], [(e, t, v)], []⟩ s = some (s.delete e) ∧
    (s.delete e).isAlive e = false := by
  constructor
  · unfold Commands.flush
    dsimp only
    rw [show runDeletes [] [e] s [] = some (s.delete e, [e, e]) from by
      simp [runDeletes, resolveId, resolveFuel]]
    dsimp only
    rw [show runRemoves [] (s.delete e) [e, e] [] = some (s.delete e, [e, e], []) from rfl]
    dsimp only
    rw [show runAdds [(e, t, v)] (s.delete e) [e, e] []
        = some (s.delete e, [e, e], []) from by
      simp [runAdds, resolveId, resolveFuel]]
    rfl
  · exact isAlive_delete_self s e

/-- C8 (amended): after a subsequent `add_singleton(T, v)`, the `Singleton`
accessor still returns the cell pointer it cached at initialization.
`AddSingleton` always allocates a fresh cell, so `read_singleton` returns
the new cell while the accessor's pointer is strictly older; the value seen
through the accessor is unchanged (the replacement `v` lives only in the
fresh cell), so the accessor does not observe the replacement. -/
theorem singleton_accessor_stale (s : Storage) (t v : Nat)
    (hWF : ∀ e ∈ s.singletons, e.2 < s.nextCell) :
    ((singletonInit s t).1.addSingleton t v).1.getSingletonEntry t
        = some (singletonInit s t).1.nextCell ∧
    (singletonInit s t).2.get < (singletonInit s t).1.nextCell ∧
    ((singletonInit s t).1.addSingleton t v).1.cellValue (singletonInit s t).2.get
        = (singletonInit s t).1.cellValue (singletonInit s t).2.get ∧
    ((singletonInit s t).1.addSingleton t v).1.cellValue (singletonInit s t).1.nextCell
        = v := by
  unfold singletonInit
  cases hge : s.getSingletonEntry t with
  | some addr =>
    dsimp only
    have haddr : addr < s.nextCell := hWF (t, addr) (alGet_mem _ _ _ hge)
    unfold Storage.addSingleton Storage.getSingletonEntry Storage.cellValue SingletonAcc.get
    dsimp only
    refine ⟨alGet_alSet_self _ _ _, haddr, ?_, ?_⟩
    · rw [alGet_alSet_ne _ _ _ _ (by omega)]
    · rw [alGet_alSet_self]
      rfl
  | none =>
    dsimp only
    unfold Storage.addSingleton Storage.getSingletonEntry Storage.cellValue SingletonAcc.get
    dsimp only
    refine ⟨alGet_alSet_self _ _ _, by omega, ?_, ?_⟩
    · rw [alGet_alSet_ne _ _ _ _ (by omega)]
    · rw [alGet_alSet_self]
      rfl

/-- C8 counterexample: in a store whose singleton of type `0` holds `5`, an
accessor is initialized, then `add_singleton(0, 9)` replaces the value.
The accessor's pointer is not the current cell pointer that
`read_singleton` returns, and the value seen through the accessor is still
`5`, not the replacement `9` — the claim as stated is false here. -/
theorem singleton_accessor_counterexample :
    some ((singletonInit (emptyStorage.addSingleton 0 5).1 0).2.get)
        ≠ (((singletonInit (emptyStorage.addSingleton 0 5).1 0).1.addSingleton 0 9).1.getSingletonEntry 0) ∧
    (((singletonInit (emptyStorage.addSingleton 0 5).1 0).1.addSingleton 0 9).1.cellValue
        ((singletonInit (emptyStorage.addSingleton 0 5).1 0).2.get)) = 5 ∧
    (((singletonInit (emptyStorage.addSingleton 0 5).1 0).1.addSingleton 0 9).1.cellValue
        ((singletonInit (emptyStorage.addSingleton 0 5).1 0).2.get)) ≠ 9 := by
  refine ⟨by decide, by decide, by decide⟩

/-- Witness for the amended C8 at the same concrete store. -/
theorem singleton_accessor_stale_witness :
    ((singletonInit (emptyStorage.addSingleton 0 5).1 0).1.addSingleton 0 9).1.getSingletonEntry 0
        = some (singletonInit (emptyStorage.addSingleton 0 5).1 0).1.nextCell ∧
    (singletonInit (emptyStorage.addSingleton 0 5).1 0).2.get
        < (singletonInit (emptyStorage.addSingleton 0 5).1 0).1.nextCell ∧
    ((singletonInit (emptyStorage.addSingleton 0 5).1 0).1.addSingleton 0 9).1.cellValue
        (singletonInit (emptyStorage.addSingleton 0 5).1 0).2.get
        = (singletonInit (emptyStorage.addSingleton 0 5).1 0).1.cellValue
            (singletonInit (emptyStorage.addSingleton 0 5).1 0).2.get ∧
    ((singletonInit (emptyStorage.addSingleton 0 5).1 0).1.addSingleton 0 9).1.cellValue
        (singletonInit (emptyStorage.addSingleton 0 5).1 0).1.nextCell = 9 :=
  singleton_accessor_stale (emptyStorage.addSingleton 0 5).1 0 9 (by decide)

/-- Chasing the rename chain on a two-cycle never reaches a fixpoint, at any
fuel: the Go `resolveId` loop runs forever. -/
theorem resolveFuel_cycle (x y : EntityId) (hxy : x ≠ y) (n : Nat) :
    resolveFuel [(x, y), (y, x)] n x = none ∧
    resolveFuel [(x, y), (y, x)] n y = none := by
  induction n with
  | zero => exact ⟨rfl, rfl⟩
  | succ n ih =>
    constructor
    · simp only [resolveFuel]
      rw [show alGet [(x, y), (y, x)] x = some y from by simp]
      exact ih.2
    · simp only [resolveFuel]
      rw [show alGet [(x, y), (y, x)] y = some x from by simp [alGet_cons, hxy]]
      exact ih.1

/-- C2 (code bug): flushing a buffer that removes component `1` from entity
`e`, re-adds component `1` on the raw id `e`, and then adds component `2`
on the raw id `e` does not terminate.  The removal migrates the entity
`e = ([0,1],0)` to `e1 = ([0],0)`; the first add migrates it back into the
freed slot, exactly `e` again, so the rename chain holds the cycle
`e ↦ e1 ↦ e`; the second add's `resolveId` then loops forever (second
conjunct: no fuel reaches a fixpoint), where the claim promises every later
add is applied and one entity survives the flush. -/
theorem flush_rename_cycle_diverges :
    Commands.flush
        ⟨[], [], [(⟨[0, 1], 0⟩, 1, 7), (⟨[0, 1], 0⟩, 2, 9)], [(⟨[0, 1], 0⟩, 1)]⟩
        (emptyStorage.spawn [(0, 5), (1, 7)]).1 = none ∧
    (∀ n, resolveFuel [(⟨[0, 1], 0⟩, ⟨[0], 0⟩), (⟨[0], 0⟩, ⟨[0, 1], 0⟩)] n
        ⟨[0, 1], 0⟩ = none) := by
  constructor
  · decide
  · intro n
    exact (resolveFuel_cycle ⟨[0, 1], 0⟩ ⟨[0], 0⟩ (by decide) n).1

/-- C4: removing the single component type of an entity whose archetype has
exactly that one type returns id `0`, frees the slot in every pool of the
archetype, zeroes any registered `EntityRef` (which then resolves to
`(0, false)`), and creates no archetype: the set of keys with an archetype
is unchanged. -/
theorem removeComponent_last (s : Storage) (id : EntityId) (t : Nat) (a : Archetype)
    (ha : alGet s.archetypes id.arch = some a) (haid : a.aid = id.arch)
    (hty : a.types = [t]) :
    (s.removeComponent id t).2 = zeroId ∧
    (∀ a2, alGet (s.removeComponent id t).1.archetypes id.arch = some a2 →
        ∀ p ∈ a2.storages, p.has id.idx = false) ∧
    (∀ rid, alGet a.refs id = some rid →
        (s.removeComponent id t).1.resolveEntityRef (some rid) = (zeroId, false)) ∧
    (∀ k, (alGet (s.removeComponent id t).1.archetypes k).isSome
        = (alGet s.archetypes k).isSome) := by
  unfold Storage.removeComponent
  rw [ha]
  dsimp only
  have hfe : a.types.filter (fun u => decide (u ≠ t)) = [] := by
    rw [hty]
    simp
  rw [hfe, if_pos (rfl : ([] : List Nat) = [])]
  cases hr : alGet a.refs id with
  | some rid =>
    dsimp only
    unfold Storage.mapRefs
    dsimp only
    rw [ha]
    dsimp only
    unfold Storage.archDelete
    dsimp only
    rw [alGet_alSet_self]
    dsimp only
    rw [haid]
    have heid : (⟨id.arch, id.idx⟩ : EntityId) = id := rfl
    rw [heid, alGet_alErase_self]
    dsimp only
    refine ⟨rfl, ?_, ?_, ?_⟩
    · intro a2 ha2 p hp
      rw [alGet_alSet_self] at ha2
      cases ha2
      simp only [List.mem_map] at hp
      obtain ⟨q, -, hq⟩ := hp
      rw [← hq]
      exact q.del_has_self id.idx
    · intro rid0 hrid0
      injection hrid0 with hinj
      subst hinj
      unfold Storage.resolveEntityRef
      dsimp only
      rw [alGet_alSet_self]
      rfl
    · intro k
      rw [isSome_alGet_alSet_eq _ _ _ _ (by
        rw [alGet_alSet_self]
        rfl)]
      rw [isSome_alGet_alSet_eq _ _ _ _ (by
        rw [ha]
        rfl)]
  | none =>
    dsimp only
    unfold Storage.archDelete
    dsimp only
    rw [ha]
    dsimp only
    rw [haid]
    have heid : (⟨id.arch, id.idx⟩ : EntityId) = id := rfl
    rw [heid, hr]
    dsimp only
    refine ⟨rfl, ?_, ?_, ?_⟩
    · intro a2 ha2 p hp
      rw [alGet_alSet_self] at ha2
      cases ha2
      simp only [List.mem_map] at hp
      obtain ⟨q, -, hq⟩ := hp
      rw [← hq]
      exact q.del_has_self id.idx
    · intro rid0 hrid0
      exact Option.noConfusion hrid0
    · intro k
      rw [isSome_alGet_alSet_eq _ _ _ _ (by
        rw [ha]
        rfl)]

/-- Witness for C4: a one-component entity with a live ref; removing its
only component deletes it, zeroes the ref, frees the slot. -/
theorem removeComponent_last_witness :
    (((emptyStorage.spawn [(3, 4)]).1.createEntityRef ⟨[3], 0⟩).1.removeComponent
        ⟨[3], 0⟩ 3).2 = zeroId ∧
    (((emptyStorage.spawn [(3, 4)]).1.createEntityRef ⟨[3], 0⟩).1.removeComponent
        ⟨[3], 0⟩ 3).1.resolveEntityRef (some 0) = (zeroId, false) ∧
    (∀ a2, alGet (((emptyStorage.spawn [(3, 4)]).1.createEntityRef ⟨[3], 0⟩).1.removeComponent
        ⟨[3], 0⟩ 3).1.archetypes [3] = some a2 →
        ∀ p ∈ a2.storages, p.has 0 = false) := by
  have h := removeComponent_last
    ((emptyStorage.spawn [(3, 4)]).1.createEntityRef ⟨[3], 0⟩).1 ⟨[3], 0⟩ 3
    ((alGet ((emptyStorage.spawn [(3, 4)]).1.createEntityRef ⟨[3], 0⟩).1.archetypes
        [3]).getD (newArchetype []))
    (by rfl) (by decide) (by decide)
  exact ⟨h.1, h.2.2.1 0 (by decide), h.2.1⟩

/-! ## Pool compaction (C6) -/

/-- The still-occupied slots in ascending order, as the `Compact` read loop
sees them (`nextIndex` exclusive bound, occupancy bit). -/
def Pool.occList (p : Pool) : List Nat :=
  (List.range p.nextIndex).filter (fun i => p.filled.getD i false)

/-- Modelled from the spec: "rebuild the block vector to the minimum size
holding all survivors" — the least number of 64-entry blocks that hold `n`
values.  Used only to compare the code's block count against the claim. -/
def specMinBlocks (n : Nat) : Nat :=
  (n + blockSize - 1) / blockSize

/-- `specMinBlocks` is the least block count holding `n` survivors. -/
theorem specMinBlocks_minimal (n : Nat) :
    n ≤ blockSize * specMinBlocks n ∧ ∀ b, n ≤ blockSize * b → specMinBlocks n ≤ b := by
  unfold specMinBlocks blockSize
  constructor
  · omega
  · intro b hb
    omega

/-- Under full well-formedness the freelist counts exactly the holes below
`nextIndex`, so the survivor count is `nextIndex - |freeSlots|`. -/
theorem Pool.occList_length (p : Pool) (h : p.WFfull) :
    p.occList.length + p.freeSlots.length = p.nextIndex := by
  obtain ⟨⟨-, -, -, hnd, hfree, hlast⟩, hcomp⟩ := h
  have hperm : p.freeSlots.length
      = ((List.range p.nextIndex).filter (fun i => !(p.filled.getD i false))).length := by
    have h1 : p.freeSlots.Nodup := hnd
    have h2 : ((List.range p.nextIndex).filter (fun i => !(p.filled.getD i false))).Nodup :=
      (List.nodup_range _).filter _
    have hm : ∀ a, a ∈ p.freeSlots ↔
        a ∈ (List.range p.nextIndex).filter (fun i => !(p.filled.getD i false)) := by
      intro a
      rw [List.mem_filter, List.mem_range]
      constructor
      · intro ha
        refine ⟨(hfree a ha).1, ?_⟩
        simp only [Bool.not_eq_true']
        exact (hfree a ha).2
      · rintro ⟨hlt, hf⟩
        simp only [Bool.not_eq_true'] at hf
        exact hcomp a hlt hf
    exact ((List.perm_ext_iff_of_nodup h1 h2).mpr hm).length_eq
  have := List.length_eq_length_filter_add
    (l := List.range p.nextIndex) (fun i => p.filled.getD i false)
  unfold Pool.occList
  simp only [List.length_range] at this
  omega

/-- The loop state of `Compact` after scanning the first `k` read indices
into a fresh target of `cap` cells. -/
def Pool.compactRun (p : Pool) (cap k : Nat) : CompactSt :=
  (List.range k).foldl p.compactStep
    ⟨List.replicate cap 0, List.replicate cap false, 0, []⟩

/-- The survivors among the first `k` read indices, in ascending order. -/
def Pool.occBelow (p : Pool) (k : Nat) : List Nat :=
  (List.range k).filter (fun i => p.filled.getD i false)

theorem Pool.occList_eq_occBelow (p : Pool) : p.occList = p.occBelow p.nextIndex := rfl

theorem Pool.compactRun_succ (p : Pool) (cap k : Nat) :
    p.compactRun cap (k + 1) = p.compactStep (p.compactRun cap k) k := by
  unfold Pool.compactRun
  rw [show List.range (k + 1) = List.range k ++ [k] from by simp [List.range_succ]]
  rw [List.foldl_append]
  rfl

theorem Pool.occBelow_succ (p : Pool) (k : Nat) :
    p.occBelow (k + 1)
      = p.occBelow k ++ (if p.filled.getD k false then [k] else []) := by
  unfold Pool.occBelow
  rw [show List.range (k + 1) = List.range k ++ [k] from by simp [List.range_succ]]
  rw [List.filter_append]
  congr 1
  simp only [List.filter_cons, List.filter_nil]

theorem Pool.occBelow_le (p : Pool) (k : Nat) (hk : k ≤ p.nextIndex) :
    (p.occBelow k).length ≤ p.occList.length := by
  rw [Pool.occList_eq_occBelow]
  unfold Pool.occBelow
  have : p.nextIndex = k + (p.nextIndex - k) := by omega
  rw [this, List.range_add, List.filter_append, List.length_append]
  omega

theorem Pool.compactStep_filled (p : Pool) (st : CompactSt) (r : Nat)
    (h : p.filled.getD r false = true) :
    p.compactStep st r
      = ⟨st.nv.set st.wp (p.vals.getD r 0), st.nf.set st.wp true,
         st.wp + 1, st.m ++ [(r, st.wp)]⟩ := by
  unfold Pool.compactStep
  rw [if_pos h]

theorem Pool.compactStep_unfilled (p : Pool) (st : CompactSt) (r : Nat)
    (h : p.filled.getD r false = false) :
    p.compactStep st r = st := by
  unfold Pool.compactStep
  rw [h]
  simp

/-- The `Compact` read loop invariant: after scanning the first `k` read
indices, `writePos` counts the survivors seen, the map pairs them with
their ranks in order, the new occupancy bits are exactly `[0, writePos)`,
and the new cells hold the survivors' values in order. -/
theorem Pool.compactRun_inv (p : Pool) (cap : Nat)
    (hcap : p.occList.length ≤ cap) :
    ∀ k, k ≤ p.nextIndex →
      (p.compactRun cap k).wp = (p.occBelow k).length ∧
      (p.compactRun cap k).m
        = (p.occBelow k).zip (List.range (p.occBelow k).length) ∧
      (p.compactRun cap k).nv.length = cap ∧
      (p.compactRun cap k).nf.length = cap ∧
      (∀ j, (p.compactRun cap k).nf.getD j false
        = decide (j < (p.occBelow k).length)) ∧
      (∀ j, j < (p.occBelow k).length →
        (p.compactRun cap k).nv.getD j 0
          = p.vals.getD ((p.occBelow k).getD j 0) 0) := by
  intro k
  induction k with
  | zero =>
    intro hk
    refine ⟨rfl, rfl, by simp [Pool.compactRun], by simp [Pool.compactRun], ?_, ?_⟩
    · intro j
      simp [Pool.compactRun, Pool.occBelow, getD_replicate]
    · intro j hj
      simp [Pool.occBelow] at hj
  | succ k ih =>
    intro hk
    obtain ⟨ihwp, ihm, ihnvl, ihnfl, ihnf, ihnv⟩ := ih (Nat.le_of_succ_le hk)
    by_cases hf : p.filled.getD k false
    · have hosucc : p.occBelow (k + 1) = p.occBelow k ++ [k] := by
        rw [Pool.occBelow_succ, if_pos hf]
      rw [Pool.compactRun_succ, hosucc, Pool.compactStep_filled _ _ _ hf]
      have hwplt : (p.occBelow k).length < cap := by
        have h1 := p.occBelow_le (k + 1) hk
        rw [hosucc, List.length_append] at h1
        simp only [List.length_cons, List.length_nil] at h1
        omega
      refine ⟨?_, ?_, ?_, ?_, ?_, ?_⟩
      · dsimp only
        rw [ihwp]
        simp
      · dsimp only
        rw [ihm, ihwp, List.length_append]
        simp only [List.length_cons, List.length_nil]
        rw [show List.range ((p.occBelow k).length + 1)
            = List.range (p.occBelow k).length ++ [(p.occBelow k).length] from by
          simp [List.range_succ]]
        rw [List.zip_append (by simp)]
        rfl
      · dsimp only
        rw [List.length_set]
        exact ihnvl
      · dsimp only
        rw [List.length_set]
        exact ihnfl
      · intro j
        dsimp only
        rw [List.length_append]
        simp only [List.length_cons, List.length_nil]
        by_cases hj : j = (p.occBelow k).length
        · subst hj
          rw [ihwp] at *
          rw [getD_set_self _ _ _ _ (by rw [ihnfl]; exact hwplt)]
          simp
        · rw [ihwp, getD_set_ne _ _ _ _ _ (fun he => hj he.symm), ihnf j]
          apply decide_eq_decide.mpr
          omega
      · intro j hj
        dsimp only
        rw [List.length_append] at hj
        simp only [List.length_cons, List.length_nil] at hj
        by_cases hje : j = (p.occBelow k).length
        · subst hje
          rw [ihwp, getD_set_self _ _ _ _ (by rw [ihnvl]; exact hwplt)]
          rw [getD_append_right _ _ _ _ (le_refl _)]
          simp
        · have hjlt : j < (p.occBelow k).length := by omega
          rw [ihwp, getD_set_ne _ _ _ _ _ (fun he => hje he.symm), ihnv j hjlt,
            getD_append_left _ _ _ _ hjlt]
    · have hosucc : p.occBelow (k + 1) = p.occBelow k := by
        rw [Pool.occBelow_succ, if_neg hf, List.append_nil]
      rw [Pool.compactRun_succ, hosucc,
        Pool.compactStep_unfilled _ _ _ (by simpa using hf)]
      exact ⟨ihwp, ihm, ihnvl, ihnfl, ihnf, ihnv⟩

/-- The full behaviour of `Compact` on a well-formed pool (helper carrying
the proof; the claim-level statement instantiates it). -/
theorem Pool.compact_spec (p : Pool) (h : p.WFfull) :
    (p.compact).2 = p.occList.zip (List.range p.occList.length) ∧
    (∀ i, (p.compact).1.has i = decide (i < p.occList.length)) ∧
    (∀ j, j < p.occList.length →
        (p.compact).1.get j = p.get (p.occList.getD j 0)) ∧
    (p.compact).1.freeSlots = [] ∧
    (p.compact).1.nextIndex = p.occList.length ∧
    (p.compact).1.blocks
      = (if p.occList.length = 0 then 1 else specMinBlocks p.occList.length) := by
  have hcount := p.occList_length h
  unfold Pool.compact
  by_cases hc : p.nextIndex = 0 ∨ p.nextIndex - p.freeSlots.length = 0
  · rw [if_pos hc]
    have hn0 : p.occList.length = 0 := by omega
    have hocc : p.occList = [] := List.length_eq_zero.mp hn0
    dsimp only
    refine ⟨by rw [hocc]; rfl, ?_, ?_, rfl, by omega, by rw [hn0]; rfl⟩
    · intro i
      rw [hn0]
      unfold Pool.has
      dsimp only
      by_cases hb : (1 : Nat) ≤ i / blockSize
      · rw [if_pos hb]
        simp
      · rw [if_neg hb, getD_replicate]
        split
        · simp
        · simp
    · intro j hj
      rw [hn0] at hj
      omega
  · rw [if_neg hc]
    have htot : p.nextIndex - p.freeSlots.length = p.occList.length := by omega
    have hn : p.occList.length ≠ 0 := by omega
    have hcap : p.occList.length
        ≤ blockSize * ((p.nextIndex - p.freeSlots.length + blockSize - 1) / blockSize) := by
      rw [htot]
      unfold blockSize
      omega
    obtain ⟨iwp, im, invl, infl, inf, inv⟩ :=
      p.compactRun_inv
        (blockSize * ((p.nextIndex - p.freeSlots.length + blockSize - 1) / blockSize))
        hcap p.nextIndex le_rfl
    rw [← Pool.occList_eq_occBelow] at iwp im inf inv
    have hrun : (List.range p.nextIndex).foldl p.compactStep
        ⟨List.replicate (blockSize * ((p.nextIndex - p.freeSlots.length + blockSize - 1) / blockSize)) 0,
         List.replicate (blockSize * ((p.nextIndex - p.freeSlots.length + blockSize - 1) / blockSize)) false,
         0, []⟩
        = p.compactRun
            (blockSize * ((p.nextIndex - p.freeSlots.length + blockSize - 1) / blockSize))
            p.nextIndex := rfl
    dsimp only
    rw [hrun]
    have hnum : (p.nextIndex - p.freeSlots.length + blockSize - 1) / blockSize
        = specMinBlocks p.occList.length := by
      rw [htot]
      rfl
    refine ⟨im, ?_, ?_, rfl, iwp, by rw [if_neg hn, hnum]⟩
    · intro i
      unfold Pool.has
      dsimp only
      by_cases hb : (p.nextIndex - p.freeSlots.length + blockSize - 1) / blockSize
          ≤ i / blockSize
      · rw [if_pos hb]
        have hile : blockSize * ((p.nextIndex - p.freeSlots.length + blockSize - 1) / blockSize) ≤ i := by
          have := (Nat.le_div_iff_mul_le (by decide : 0 < blockSize)).mp hb
          unfold blockSize at *
          omega
        have : ¬ (i < p.occList.length) := by omega
        simp [this]
      · rw [if_neg hb]
        exact inf i
    · intro j hj
      have hjo : p.occList.getD j 0 ∈ p.occList := by
        have : p.occList.getD j 0 = p.occList[j] := by
          rw [List.getD_eq_getElem?_getD, List.getElem?_eq_getElem hj]
          rfl
        rw [this]
        exact List.getElem_mem hj
      have hjf : p.filled.getD (p.occList.getD j 0) false = true := by
        have := List.mem_filter.mp hjo
        simpa using this.2
      have hget := p.get_eq_of_filled (p.occList.getD j 0) h.1 hjf
      rw [hget.1]
      unfold Pool.get
      dsimp only
      have hjlt : j < blockSize * ((p.nextIndex - p.freeSlots.length + blockSize - 1) / blockSize) := by
        unfold blockSize at *
        omega
      have hdiv : j / blockSize < (p.nextIndex - p.freeSlots.length + blockSize - 1) / blockSize := by
        apply (Nat.div_lt_iff_lt_mul (by decide : 0 < blockSize)).mpr
        unfold blockSize at *
        omega
      rw [if_neg (Nat.not_le.mpr hdiv)]
      rw [inf j, if_pos (by simpa using hj)]
      rw [inv j hj]

/-- C6 (amended): for a well-formed pool with `n` occupied slots,
`compact()` returns the map pairing the k-th still-occupied slot (in
ascending original order) with new slot `k` for every `k < n`; afterwards
exactly the slots `0..n-1` are occupied, the stored values survive in the
same ascending order, the freelist is empty, and the block vector is
rebuilt to `⌈n/64⌉` blocks — the minimum holding all survivors — when
`n > 0`, but to one (empty) block when `n = 0`. -/
theorem pool_compact_correct (p : Pool) (h : p.WFfull) :
    (p.compact).2 = p.occList.zip (List.range p.occList.length) ∧
    (∀ i, (p.compact).1.has i = decide (i < p.occList.length)) ∧
    (∀ j, j < p.occList.length →
        (p.compact).1.get j = p.get (p.occList.getD j 0)) ∧
    (p.compact).1.freeSlots = [] ∧
    (p.compact).1.nextIndex = p.occList.length ∧
    (p.compact).1.blocks
      = (if p.occList.length = 0 then 1 else specMinBlocks p.occList.length) :=
  Pool.compact_spec p h

/-- C6 counterexample to the claim as stated: compacting the empty pool
(zero occupied slots) rebuilds the block vector to one block, not to the
minimum number of blocks holding all survivors, which is zero. -/
theorem pool_compact_empty_blocks_counterexample :
    (emptyPool.compact).1.blocks = 1 ∧
    specMinBlocks (emptyPool.occList).length = 0 ∧
    (emptyPool.compact).1.blocks ≠ specMinBlocks (emptyPool.occList).length := by
  refine ⟨by decide, by decide, by decide⟩

/-- Witness for the amended C6 at a concrete pool: three appended values,
the middle one deleted, then compacted. -/
theorem pool_compact_correct_witness :
    ((((emptyPool.appendVal 10).1.appendVal 20).1.appendVal 30).1.del 1).compact.2
      = (((((emptyPool.appendVal 10).1.appendVal 20).1.appendVal 30).1.del 1).occList).zip
          (List.range ((((emptyPool.appendVal 10).1.appendVal 20).1.appendVal 30).1.del 1).occList.length) ∧
    (∀ i, ((((emptyPool.appendVal 10).1.appendVal 20).1.appendVal 30).1.del 1).compact.1.has i
      = decide (i < ((((emptyPool.appendVal 10).1.appendVal 20).1.appendVal 30).1.del 1).occList.length)) ∧
    (∀ j, j < ((((emptyPool.appendVal 10).1.appendVal 20).1.appendVal 30).1.del 1).occList.length →
      ((((emptyPool.appendVal 10).1.appendVal 20).1.appendVal 30).1.del 1).compact.1.get j
        = ((((emptyPool.appendVal 10).1.appendVal 20).1.appendVal 30).1.del 1).get
            (((((emptyPool.appendVal 10).1.appendVal 20).1.appendVal 30).1.del 1).occList.getD j 0)) ∧
    ((((emptyPool.appendVal 10).1.appendVal 20).1.appendVal 30).1.del 1).compact.1.freeSlots = [] ∧
    ((((emptyPool.appendVal 10).1.appendVal 20).1.appendVal 30).1.del 1).compact.1.nextIndex
      = ((((emptyPool.appendVal 10).1.appendVal 20).1.appendVal 30).1.del 1).occList.length ∧
    ((((emptyPool.appendVal 10).1.appendVal 20).1.appendVal 30).1.del 1).compact.1.blocks
      = (if ((((emptyPool.appendVal 10).1.appendVal 20).1.appendVal 30).1.del 1).occList.length = 0
          then 1
          else specMinBlocks ((((emptyPool.appendVal 10).1.appendVal 20).1.appendVal 30).1.del 1).occList.length) :=
  pool_compact_correct ((((emptyPool.appendVal 10).1.appendVal 20).1.appendVal 30).1.del 1)
    (by decide)

/-! ## Spawn and migration machinery (C1, C5) -/

theorem getD_mem_of_lt {A : Type} (l : List A) (j : Nat) (d : A) (h : j < l.length) :
    l.getD j d ∈ l := by
  rw [List.getD_eq_getElem l d h]
  exact List.getElem_mem h

theorem getD_map_lt {A B : Type} (f : A → B) (l : List A) (j : Nat) (d : B) (e : A)
    (h : j < l.length) : (l.map f).getD j d = f (l.getD j e) := by
  rw [List.getD_eq_getElem (l.map f) d (by simpa using h), List.getElem_map,
    List.getD_eq_getElem l e h]

theorem findIdx?_none_of_not_mem (l : List Nat) (u : Nat) (hu : u ∉ l) :
    l.findIdx? (fun x => x = u) = none := by
  cases h : l.findIdx? (fun x => x = u) with
  | none => rfl
  | some j =>
    obtain ⟨hlt, hfi⟩ := List.findIdx?_eq_some_iff_findIdx_eq.mp h
    have hfil : l.findIdx (fun x => decide (x = u)) < l.length := by omega
    have hp := @List.findIdx_getElem _ (fun x => decide (x = u)) l hfil
    have hm := List.getElem_mem hfil
    rw [of_decide_eq_true hp] at hm
    exact absurd hm hu

theorem findIdx?_of_mem (l : List Nat) (u : Nat) (hu : u ∈ l) :
    l.findIdx? (fun x => x = u) = some (l.findIdx (fun x => x = u)) ∧
    l.findIdx (fun x => x = u) < l.length ∧
    l.getD (l.findIdx (fun x => x = u)) 0 = u := by
  cases h : l.findIdx? (fun x => x = u) with
  | none =>
    have h2 : decide (u = u) = false := List.findIdx?_eq_none_iff.mp h u hu
    rw [decide_eq_false_iff_not] at h2
    exact absurd rfl h2
  | some j =>
    obtain ⟨hlt, hfi⟩ := List.findIdx?_eq_some_iff_findIdx_eq.mp h
    have hfil : l.findIdx (fun x => decide (x = u)) < l.length := by omega
    have hp := @List.findIdx_getElem _ (fun x => decide (x = u)) l hfil
    refine ⟨by rw [hfi], hfil, ?_⟩
    rw [List.getD_eq_getElem l 0 hfil]
    exact of_decide_eq_true hp

theorem findIdx_append_cons (pre rest : List Nat) (u : Nat)
    (hnd : (pre ++ u :: rest).Nodup) :
    (pre ++ u :: rest).findIdx (fun x => x = u) = pre.length := by
  induction pre with
  | nil => simp [List.findIdx_cons]
  | cons a pre ih =>
    rw [List.cons_append] at hnd ⊢
    have hnc := List.nodup_cons.mp hnd
    have ha : a ≠ u := by
      intro he
      subst he
      exact hnc.1 (List.mem_append_right _ (List.mem_cons_self _ _))
    rw [List.findIdx_cons (fun x => decide (x = u)) a (pre ++ u :: rest)]
    rw [decide_eq_false ha, Bool.cond_false, ih hnc.2, List.length_cons]

/-- `sort.Sort` after appending a fresh type: sortedness, freshness, and the
inverse filter law used by add-then-remove reasoning. -/
theorem sortTypes_addType (l : List Nat) (t : Nat) (hs : l.Sorted (· ≤ ·))
    (hnd : l.Nodup) (ht : t ∉ l) :
    (sortTypes (l ++ [t])).Sorted (· ≤ ·) ∧
    (sortTypes (l ++ [t])).Nodup ∧
    (∀ u, u ∈ sortTypes (l ++ [t]) ↔ u ∈ l ∨ u = t) ∧
    (sortTypes (l ++ [t])).filter (fun u => decide (u ≠ t)) = l ∧
    sortTypes (l ++ [t]) ≠ [] := by
  have hperm : List.Perm (sortTypes (l ++ [t])) (l ++ [t]) := List.perm_insertionSort _ _
  have hsorted : (sortTypes (l ++ [t])).Sorted (· ≤ ·) := List.sorted_insertionSort _ _
  have hnd2 : (l ++ [t]).Nodup := by
    rw [List.nodup_append]
    refine ⟨hnd, List.nodup_singleton t, ?_⟩
    intro a ha hb
    rw [List.mem_singleton] at hb
    subst hb
    exact ht ha
  have hndS : (sortTypes (l ++ [t])).Nodup := hperm.nodup_iff.mpr hnd2
  have hmem : ∀ u, u ∈ sortTypes (l ++ [t]) ↔ u ∈ l ∨ u = t := by
    intro u
    rw [hperm.mem_iff, List.mem_append, List.mem_singleton]
  have hfl : l.filter (fun u => decide (u ≠ t)) = l := by
    apply List.filter_eq_self.mpr
    intro a ha
    rw [decide_eq_true_eq]
    intro he
    subst he
    exact ht ha
  have hfilter : (sortTypes (l ++ [t])).filter (fun u => decide (u ≠ t)) = l := by
    have hp : List.Perm ((sortTypes (l ++ [t])).filter (fun u => decide (u ≠ t))) l := by
      have h0 := hperm.filter (fun u => decide (u ≠ t))
      rw [List.filter_append, hfl] at h0
      simpa using h0
    exact List.eq_of_perm_of_sorted hp (hsorted.filter _) hs
  have hne : sortTypes (l ++ [t]) ≠ [] := by
    intro he
    have := (hmem t).mpr (Or.inr rfl)
    rw [he] at this
    cases this
  exact ⟨hsorted, hndS, hmem, hfilter, hne⟩

/-- Filtering one type out of a sorted duplicate-free type list. -/
theorem filter_ne_spec (l : List Nat) (t : Nat) (hs : l.Sorted (· ≤ ·)) (hnd : l.Nodup) :
    (l.filter (fun u => decide (u ≠ t))).Sorted (· ≤ ·) ∧
    (l.filter (fun u => decide (u ≠ t))).Nodup ∧
    t ∉ l.filter (fun u => decide (u ≠ t)) ∧
    (∀ u, u ∈ l.filter (fun u => decide (u ≠ t)) ↔ u ∈ l ∧ u ≠ t) := by
  refine ⟨hs.filter _, hnd.filter _, ?_, ?_⟩
  · intro hm
    have := (List.mem_filter.mp hm).2
    simp at this
  · intro u
    rw [List.mem_filter]
    simp

theorem forall_mem_alSet {K V : Type} [DecidableEq K] (P : K × V → Prop)
    (l : List (K × V)) (k : K) (v : V)
    (hl : ∀ e ∈ l, P e) (hv : P (k, v)) : ∀ e ∈ alSet l k v, P e := by
  induction l with
  | nil =>
    intro e he
    rw [alSet, List.mem_singleton] at he
    subst he
    exact hv
  | cons e0 rest ih =>
    obtain ⟨k0, v0⟩ := e0
    intro e he
    rw [alSet] at he
    by_cases h : k0 = k
    · rw [if_pos h] at he
      rcases List.mem_cons.mp he with he | he
      · subst he
        exact hv
      · exact hl e (List.mem_cons_of_mem _ he)
    · rw [if_neg h] at he
      rcases List.mem_cons.mp he with he | he
      · subst he
        exact hl _ (List.mem_cons_self _ _)
      · exact ih (fun x hx => hl x (List.mem_cons_of_mem _ hx)) e he

theorem newArchetype_WF (k : List Nat) (hne : k ≠ []) (hs : k.Sorted (· ≤ ·))
    (hnd : k.Nodup) : (newArchetype k).WF := by
  refine ⟨hne, hs, hnd, by simp [newArchetype], ?_, ?_⟩
  · intro p hp
    simp only [newArchetype, List.mem_map] at hp
    obtain ⟨-, -, hp⟩ := hp
    rw [← hp]
    decide
  · intro p hp q hq
    simp only [newArchetype, List.mem_map] at hp hq
    obtain ⟨-, -, hp⟩ := hp
    obtain ⟨-, -, hq⟩ := hq
    rw [← hp, ← hq]
    exact Pool.shapeEq_refl _

theorem Pool.del_blocks (p : Pool) (i : Nat) : (p.del i).blocks = p.blocks := by
  unfold Pool.del
  split
  · rfl
  · split <;> rfl

theorem Pool.del_get_other (p : Pool) (i j : Nat) (hj : j ≠ i) :
    (p.del i).get j = p.get j := by
  unfold Pool.get
  rw [p.del_blocks i, p.del_filled_other i j hj, p.del_vals_other i j hj]

/-- Reads at an occupied slot, archetype level. -/
theorem Archetype.getComponent_isSome (a : Archetype) (idx u : Nat) (hWF : a.WF)
    (hu : u ∈ a.types) (hfill : ∀ p ∈ a.storages, p.filled.getD idx false = true) :
    (a.getComponent idx u).isSome := by
  obtain ⟨hf1, hf2, hf3⟩ := findIdx?_of_mem a.types u hu
  unfold Archetype.getComponent
  rw [hf1]
  dsimp only
  have hlen : a.types.findIdx (fun x => x = u) < a.storages.length := by
    rw [hWF.2.2.2.1]
    exact hf2
  have hmem : a.storages.getD (a.types.findIdx (fun x => x = u)) emptyPool ∈ a.storages :=
    getD_mem_of_lt _ _ _ hlen
  have hfil := hfill _ hmem
  have hwl := hWF.2.2.2.2.1 _ hmem
  rw [((a.storages.getD _ emptyPool).get_eq_of_filled idx hwl hfil).1]
  rfl

theorem Archetype.getComponent_not_mem (a : Archetype) (idx u : Nat)
    (hu : u ∉ a.types) : a.getComponent idx u = none := by
  unfold Archetype.getComponent
  rw [findIdx?_none_of_not_mem a.types u hu]

/-- `Spawn` inner loop for a component whose type matches no pool: nothing
changes and `storagePos` is passed through. -/
theorem spawnInto_skip (c : CompV) (ts : List Nat) (ps : List Pool) (pos : Int)
    (h : c.typ ∉ ts) : spawnInto c ts ps pos = (ps, pos) := by
  induction ts generalizing ps pos with
  | nil => rfl
  | cons t ts ih =>
    cases ps with
    | nil => rfl
    | cons p ps =>
      simp only [spawnInto]
      rw [if_neg (fun he => h (by rw [← he]; exact List.mem_cons_self _ _))]
      rw [ih ps pos (fun hm => h (List.mem_cons_of_mem _ hm))]

/-- `Spawn` inner loop for a present type: exactly the pool at the type
index receives the append, and its returned slot becomes `storagePos`. -/
theorem spawnInto_spec (c : CompV) (w : Nat) (hw : c.val = some w) :
    ∀ (ts : List Nat) (ps : List Pool) (pos : Int), ts.Nodup → c.typ ∈ ts →
      ps.length = ts.length →
      spawnInto c ts ps pos
        = (ps.set (ts.findIdx (fun u => u = c.typ))
             ((ps.getD (ts.findIdx (fun u => u = c.typ)) emptyPool).appendVal w).1,
           ((ps.getD (ts.findIdx (fun u => u = c.typ)) emptyPool).appendVal w).2) := by
  intro ts
  induction ts with
  | nil =>
    intro ps pos hnd hmem hlen
    cases hmem
  | cons t ts ih =>
    intro ps pos hnd hmem hlen
    cases ps with
    | nil => simp at hlen
    | cons p ps =>
      simp only [spawnInto]
      by_cases ht : t = c.typ
      · rw [if_pos ht]
        have hnotin : c.typ ∉ ts := by
          rw [← ht]
          exact (List.nodup_cons.mp hnd).1
        simp only [hw, Pool.appendOpt]
        rw [spawnInto_skip c ts ps _ hnotin]
        rw [List.findIdx_cons (fun u => decide (u = c.typ)) t ts,
          decide_eq_true ht, Bool.cond_true]
        rfl
      · rw [if_neg ht]
        have hmem2 : c.typ ∈ ts := by
          rcases List.mem_cons.mp hmem with he | hm
          · exact absurd he.symm ht
          · exact hm
        rw [ih ps pos (List.nodup_cons.mp hnd).2 hmem2 (by simpa using hlen)]
        rw [List.findIdx_cons (fun u => decide (u = c.typ)) t ts,
          decide_eq_false ht, Bool.cond_false]
        rfl

/-- The `Spawn` fold over one component per type (in type-list order): each
pool receives exactly one append, and the final `storagePos` is the slot the
last pool returned. -/
theorem spawn_fold_spec (types : List Nat) (F : Nat → Option Nat) (hnd : types.Nodup) :
    ∀ (rest pre : List Nat) (qs : List Pool) (pos : Int),
      types = pre ++ rest →
      qs.length = types.length →
      (∀ u ∈ rest, (F u).isSome) →
      (((rest.map (fun u => CompV.mk u (F u))).foldl
          (fun (st : List Pool × Int) c => spawnInto c types st.1 st.2) (qs, pos)).1.length
        = qs.length) ∧
      (∀ j, ((rest.map (fun u => CompV.mk u (F u))).foldl
          (fun (st : List Pool × Int) c => spawnInto c types st.1 st.2) (qs, pos)).1.getD j emptyPool
        = if pre.length ≤ j ∧ j < types.length
          then ((qs.getD j emptyPool).appendVal ((F (types.getD j 0)).getD 0)).1
          else qs.getD j emptyPool) ∧
      (((rest.map (fun u => CompV.mk u (F u))).foldl
          (fun (st : List Pool × Int) c => spawnInto c types st.1 st.2) (qs, pos)).2
        = if rest = [] then pos
          else ((qs.getD (types.length - 1) emptyPool).appendVal
                  ((F (types.getD (types.length - 1) 0)).getD 0)).2) := by
  intro rest
  induction rest with
  | nil =>
    intro pre qs pos htypes hlen hF
    have hpl : types.length = pre.length := by rw [htypes]; simp
    simp only [List.map_nil, List.foldl_nil]
    refine ⟨by trivial, ?_, by simp⟩
    intro j
    rw [if_neg (by omega)]
  | cons u rest ih =>
    intro pre qs pos htypes hlen hF
    have hu : u ∈ types := by
      rw [htypes]
      exact List.mem_append_right _ (List.mem_cons_self _ _)
    obtain ⟨w, hw⟩ := Option.isSome_iff_exists.mp (hF u (List.mem_cons_self _ _))
    have hfi : types.findIdx (fun x => x = u) = pre.length := by
      rw [htypes]
      exact findIdx_append_cons pre rest u (htypes ▸ hnd)
    have hprelt : pre.length < types.length := by
      rw [htypes]
      simp only [List.length_append, List.length_cons]
      omega
    have htpre : types.getD pre.length 0 = u := by
      rw [htypes, getD_append_right pre (u :: rest) pre.length 0 le_rfl]
      simp
    simp only [List.map_cons, List.foldl_cons]
    rw [spawnInto_spec (CompV.mk u (F u)) w hw types qs pos hnd hu hlen]
    have hstep := ih (pre ++ [u])
      (qs.set (types.findIdx (fun x => x = u))
        ((qs.getD (types.findIdx (fun x => x = u)) emptyPool).appendVal w).1)
      ((qs.getD (types.findIdx (fun x => x = u)) emptyPool).appendVal w).2
      (by rw [htypes, List.append_assoc]; rfl)
      (by rw [List.length_set]; exact hlen)
      (fun x hx => hF x (List.mem_cons_of_mem _ hx))
    obtain ⟨ihl, ihg, ihp⟩ := hstep
    have hqlen : pre.length < qs.length := by omega
    refine ⟨by rw [ihl, List.length_set], ?_, ?_⟩
    · intro j
      rw [ihg j]
      simp only [List.length_append, List.length_singleton]
      by_cases hj1 : j < pre.length
      · rw [if_neg (by omega), if_neg (by omega), hfi,
          getD_set_ne _ _ _ _ _ (by omega)]
      · by_cases hj2 : j = pre.length
        · subst hj2
          rw [if_neg (by omega), if_pos ⟨le_rfl, hprelt⟩, hfi,
            getD_set_self _ _ _ _ (by omega), htpre, hw]
          rfl
        · by_cases hj3 : j < types.length
          · rw [if_pos (by omega), if_pos (by omega), hfi,
              getD_set_ne _ _ _ _ _ (by omega)]
          · rw [if_neg (by omega), if_neg (by omega), hfi,
              getD_set_ne _ _ _ _ _ (by omega)]
    · rw [ihp, if_neg (List.cons_ne_nil u rest)]
      by_cases hr : rest = []
      · rw [if_pos hr]
        have hlenpre : types.length - 1 = pre.length := by
          rw [htypes, hr]
          simp
        rw [hfi, hlenpre, htpre, hw]
        rfl
      · rw [if_neg hr]
        have hlenge : pre.length + 1 ≤ types.length - 1 := by
          rw [htypes]
          simp only [List.length_append, List.length_cons]
          have : rest.length ≠ 0 := fun he => hr (List.length_eq_zero.mp he)
          omega
        rw [hfi, getD_set_ne _ _ _ _ _ (by omega)]

theorem option_some_getD {A : Type} (o : Option A) (d : A) (h : o.isSome) :
    some (o.getD d) = o := by
  cases o with
  | none => cases h
  | some w => rfl

/-- `Archetype.Spawn` on one component per type (the shape every migration
and spawn uses): the shared `storagePos` comes out as the common next slot,
and each pool receives exactly its own component. -/
theorem Archetype.spawn_uniform (a : Archetype) (F : Nat → Option Nat)
    (hWF : a.WF) (hF : ∀ u ∈ a.types, (F u).isSome) :
    (a.spawn (a.types.map (fun u => CompV.mk u (F u)))).2
        = Int.ofNat ((a.storages.getD 0 emptyPool).nextSlot) ∧
    (a.spawn (a.types.map (fun u => CompV.mk u (F u)))).1.aid = a.aid ∧
    (a.spawn (a.types.map (fun u => CompV.mk u (F u)))).1.types = a.types ∧
    (a.spawn (a.types.map (fun u => CompV.mk u (F u)))).1.refs = a.refs ∧
    (a.spawn (a.types.map (fun u => CompV.mk u (F u)))).1.storages.length
        = a.storages.length ∧
    (∀ j, j < a.storages.length →
      (a.spawn (a.types.map (fun u => CompV.mk u (F u)))).1.storages.getD j emptyPool
        = ((a.storages.getD j emptyPool).appendVal ((F (a.types.getD j 0)).getD 0)).1) := by
  obtain ⟨hne, hsor, hnd, hslen, hwl, hshape⟩ := hWF
  obtain ⟨ml, mg, mp⟩ :=
    spawn_fold_spec a.types F hnd a.types [] a.storages 0 (by simp) hslen hF
  have htlen : 0 < a.types.length := by
    cases ht : a.types with
    | nil => exact absurd ht hne
    | cons x xs => simp [ht]
  unfold Archetype.spawn
  dsimp only
  refine ⟨?_, rfl, rfl, rfl, ml, ?_⟩
  · rw [mp, if_neg hne, Pool.appendVal_snd]
    have h0 : a.storages.getD 0 emptyPool ∈ a.storages :=
      getD_mem_of_lt _ _ _ (by omega)
    have h1 : a.storages.getD (a.types.length - 1) emptyPool ∈ a.storages :=
      getD_mem_of_lt _ _ _ (by omega)
    rw [Pool.ShapeEq.nextSlot_eq (hshape _ h1 _ h0)]
  · intro j hj
    rw [mg j, if_pos ⟨Nat.zero_le j, by omega⟩]

/-- Derived reads after a uniform `Spawn`: the new archetype is well formed,
the written slot is occupied in every pool, and `GetComponent` at the new
slot returns exactly the supplied component values. -/
theorem Archetype.spawn_reads (a : Archetype) (F : Nat → Option Nat)
    (hWF : a.WF) (hF : ∀ u ∈ a.types, (F u).isSome) :
    (a.spawn (a.types.map (fun u => CompV.mk u (F u)))).1.WF ∧
    (∀ p ∈ (a.spawn (a.types.map (fun u => CompV.mk u (F u)))).1.storages,
        p.filled.getD ((a.storages.getD 0 emptyPool).nextSlot) false = true) ∧
    (∀ u ∈ a.types,
        (a.spawn (a.types.map (fun u => CompV.mk u (F u)))).1.getComponent
            ((a.storages.getD 0 emptyPool).nextSlot) u = F u) ∧
    (∀ u, u ∉ a.types →
        (a.spawn (a.types.map (fun u => CompV.mk u (F u)))).1.getComponent
            ((a.storages.getD 0 emptyPool).nextSlot) u = none) := by
  obtain ⟨h2, haid, htypes, hrefs, hlen, hget⟩ := a.spawn_uniform F hWF hF
  obtain ⟨hne, hsor, hnd, hslen, hwl, hshape⟩ := hWF
  have htlen : 0 < a.types.length := by
    cases ht : a.types with
    | nil => exact absurd ht hne
    | cons x xs => simp [ht]
  have hmemD : ∀ j, j < a.storages.length → a.storages.getD j emptyPool ∈ a.storages :=
    fun j hj => getD_mem_of_lt _ _ _ hj
  have hns : ∀ j, j < a.storages.length →
      (a.storages.getD j emptyPool).nextSlot = (a.storages.getD 0 emptyPool).nextSlot :=
    fun j hj => Pool.ShapeEq.nextSlot_eq
      (hshape _ (hmemD j hj) _ (hmemD 0 (by omega)))
  have hmem_elim : ∀ p ∈ (a.spawn (a.types.map (fun u => CompV.mk u (F u)))).1.storages,
      ∃ j, j < a.storages.length ∧
        p = ((a.storages.getD j emptyPool).appendVal ((F (a.types.getD j 0)).getD 0)).1 := by
    intro p hp
    obtain ⟨j, hj, hpe⟩ := List.mem_iff_getElem.mp hp
    rw [hlen] at hj
    refine ⟨j, hj, ?_⟩
    rw [← hpe, ← List.getD_eq_getElem _ emptyPool (by rw [hlen]; exact hj), hget j hj]
  have hfil : ∀ p ∈ (a.spawn (a.types.map (fun u => CompV.mk u (F u)))).1.storages,
      p.filled.getD ((a.storages.getD 0 emptyPool).nextSlot) false = true := by
    intro p hp
    obtain ⟨j, hj, hpe⟩ := hmem_elim p hp
    subst hpe
    rw [← hns j hj]
    exact ((a.storages.getD j emptyPool).appendVal_spec _ (hwl _ (hmemD j hj))).2.1
  refine ⟨?_, hfil, ?_, ?_⟩
  · refine ⟨by rw [htypes]; exact hne, by rw [htypes]; exact hsor,
      by rw [htypes]; exact hnd, by rw [htypes, hlen]; exact hslen, ?_, ?_⟩
    · intro p hp
      obtain ⟨j, hj, hpe⟩ := hmem_elim p hp
      subst hpe
      exact ((a.storages.getD j emptyPool).appendVal_spec _ (hwl _ (hmemD j hj))).2.2.2.2.2
    · intro p hp q hq
      obtain ⟨j, hj, hpe⟩ := hmem_elim p hp
      obtain ⟨k, hk, hqe⟩ := hmem_elim q hq
      subst hpe
      subst hqe
      exact Pool.appendVal_shape_pair _ _ _ _ (hshape _ (hmemD j hj) _ (hmemD k hk))
  · intro u hu
    obtain ⟨hf1, hf2, hf3⟩ := findIdx?_of_mem a.types u hu
    unfold Archetype.getComponent
    rw [htypes, hf1]
    dsimp only
    have hjlen : a.types.findIdx (fun x => x = u) < a.storages.length := by omega
    rw [hget _ hjlen]
    have hap := (a.storages.getD (a.types.findIdx (fun x => x = u)) emptyPool).appendVal_spec
      ((F (a.types.getD (a.types.findIdx (fun x => x = u)) 0)).getD 0)
      (hwl _ (hmemD _ hjlen))
    have hfn : (((a.storages.getD (a.types.findIdx (fun x => x = u)) emptyPool).appendVal
        ((F (a.types.getD (a.types.findIdx (fun x => x = u)) 0)).getD 0)).1).filled.getD
          ((a.storages.getD 0 emptyPool).nextSlot) false = true := by
      rw [← hns _ hjlen]
      exact hap.2.1
    rw [(Pool.get_eq_of_filled _ _ hap.2.2.2.2.2 hfn).1]
    rw [← hns _ hjlen, hap.2.2.1, hf3]
    exact option_some_getD _ _ (hF u hu)
  · intro u hu
    unfold Archetype.getComponent
    rw [htypes, findIdx?_none_of_not_mem _ _ hu]

/-- The migration tail shared by `AddComponent` and `RemoveComponent` after
the destination archetype has been ensured: spawn into the destination,
update the `EntityRef` and both weak tables, delete the source slot. -/
def migrateTail (s1 : Storage) (srcId : EntityId) (newTypes : List Nat)
    (comps : List CompV) (hasRef : Option Nat) : Storage × EntityId :=
  let aDst := (alGet s1.archetypes newTypes).getD (newArchetype newTypes)
  let r := aDst.spawn comps
  let newId : EntityId := ⟨newTypes, u32 r.2⟩
  let s2 := { s1 with archetypes := alSet s1.archetypes newTypes r.1 }
  let s3 := match hasRef with
    | some rid =>
        let s2a := { s2 with refHeap := alSet s2.refHeap rid ⟨newId, some newTypes⟩ }
        let s2b := s2a.mapRefs srcId.arch (fun rs => alErase rs srcId)
        s2b.mapRefs newTypes (fun rs => alSet rs newId rid)
    | none => s2
  (s3.archDelete srcId.arch srcId.idx, newId)

theorem addComponent_eq (s : Storage) (id : EntityId) (t v : Nat) (oldA : Archetype)
    (ha : alGet s.archetypes id.arch = some oldA) :
    s.addComponent id t v
      = migrateTail
          (if (alGet s.archetypes (sortTypes (oldA.types ++ [t]))).isSome then s
            else { s with
                    archetypes := alSet s.archetypes (sortTypes (oldA.types ++ [t]))
                                    (newArchetype (sortTypes (oldA.types ++ [t]))) })
          id (sortTypes (oldA.types ++ [t]))
          ((sortTypes (oldA.types ++ [t])).map (fun u =>
            if u = t then CompV.mk u (some v) else CompV.mk u (oldA.getComponent id.idx u)))
          (alGet oldA.refs id) := by
  unfold Storage.addComponent migrateTail
  rw [ha]

theorem removeComponent_eq (s : Storage) (id : EntityId) (t : Nat) (oldA : Archetype)
    (ha : alGet s.archetypes id.arch = some oldA)
    (hne : oldA.types.filter (fun u => decide (u ≠ t)) ≠ []) :
    s.removeComponent id t
      = migrateTail
          (if (alGet s.archetypes (oldA.types.filter (fun u => decide (u ≠ t)))).isSome then s
            else { s with
                    archetypes := alSet s.archetypes
                                    (oldA.types.filter (fun u => decide (u ≠ t)))
                                    (newArchetype (oldA.types.filter (fun u => decide (u ≠ t)))) })
          id (oldA.types.filter (fun u => decide (u ≠ t)))
          ((oldA.types.filter (fun u => decide (u ≠ t))).map
            (fun u => CompV.mk u (oldA.getComponent id.idx u)))
          (alGet oldA.refs id) := by
  unfold Storage.removeComponent migrateTail
  rw [ha]
  dsimp only
  rw [if_neg hne]

/-- Rewriting the component list of `AddComponent` into uniform shape. -/
theorem comps_add_eq (t v : Nat) (g : Nat → Option Nat) :
    (fun u => if u = t then CompV.mk u (some v) else CompV.mk u (g u))
      = (fun u => CompV.mk u (if u = t then some v else g u)) := by
  funext u
  by_cases h : u = t
  · rw [if_pos h, if_pos h]
  · rw [if_neg h, if_neg h]

/-- The ensure-archetype prefix of a migration: afterwards the destination
key maps to a well-formed archetype, everything else is untouched. -/
theorem ensure_spec (s : Storage) (k : List Nat) (hWF : s.WF)
    (hne : k ≠ []) (hs : k.Sorted (· ≤ ·)) (hnd : k.Nodup) :
    (if (alGet s.archetypes k).isSome then s
      else { s with archetypes := alSet s.archetypes k (newArchetype k) }).WF ∧
    (∃ aD, alGet (if (alGet s.archetypes k).isSome then s
      else { s with archetypes := alSet s.archetypes k (newArchetype k) }).archetypes k
        = some aD ∧ aD.aid = k ∧ aD.types = k ∧ aD.WF) ∧
    (∀ k2, k2 ≠ k → alGet (if (alGet s.archetypes k).isSome then s
      else { s with archetypes := alSet s.archetypes k (newArchetype k) }).archetypes k2
        = alGet s.archetypes k2) ∧
    (if (alGet s.archetypes k).isSome then s
      else { s with archetypes := alSet s.archetypes k (newArchetype k) }).refHeap
        = s.refHeap := by
  by_cases hp : (alGet s.archetypes k).isSome
  · rw [if_pos hp]
    obtain ⟨aD, haD⟩ := Option.isSome_iff_exists.mp hp
    have hprops := hWF _ (alGet_mem _ _ _ haD)
    exact ⟨hWF, ⟨aD, haD, hprops.1, hprops.2.1, hprops.2.2⟩, fun k2 h => rfl, rfl⟩
  · rw [if_neg hp]
    have hnw := newArchetype_WF k hne hs hnd
    refine ⟨?_, ⟨newArchetype k, by dsimp only; rw [alGet_alSet_self], rfl, rfl, hnw⟩,
      ?_, rfl⟩
    · intro e he
      dsimp only at he
      exact forall_mem_alSet _ _ _ _ hWF ⟨rfl, rfl, hnw⟩ e he
    · intro k2 h
      dsimp only
      rw [alGet_alSet_ne _ _ _ _ (fun he => h he.symm)]

/-- `GetComponent` is unchanged by deleting a different slot in every pool. -/
theorem Archetype.getComponent_del (a b : Archetype) (idx n u : Nat)
    (htypes : b.types = a.types)
    (hst : b.storages = a.storages.map (fun p => p.del idx))
    (hn : n ≠ idx) : b.getComponent n u = a.getComponent n u := by
  unfold Archetype.getComponent
  rw [htypes]
  cases hfi : a.types.findIdx? (fun x => x = u) with
  | none => rfl
  | some j =>
    dsimp only
    rw [hst]
    by_cases hj : j < a.storages.length
    · rw [getD_map_lt _ _ _ _ emptyPool hj]
      exact Pool.del_get_other _ _ _ hn
    · rw [getD_of_le_length _ _ _ (by simpa using Nat.le_of_not_lt hj),
        getD_of_le_length _ _ _ (Nat.le_of_not_lt hj)]

/-- Archetype well-formedness survives deleting one slot in every pool (and
any rewrite of the weak table). -/
theorem Archetype.WF_mapDel (a : Archetype) (idx : Nat)
    (refs2 : List (EntityId × Nat)) (h : a.WF) :
    (Archetype.mk a.aid a.types (a.storages.map (fun p => p.del idx)) refs2).WF := by
  obtain ⟨h1, h2, h3, h4, h5, h6⟩ := h
  refine ⟨h1, h2, h3, by simpa using h4, ?_, ?_⟩
  · intro p hp
    simp only [List.mem_map] at hp
    obtain ⟨q, hq, he⟩ := hp
    rw [← he]
    exact Pool.del_WFlite q idx (h5 q hq)
  · intro p hp q hq
    simp only [List.mem_map] at hp hq
    obtain ⟨p0, hp0, hpe⟩ := hp
    obtain ⟨q0, hq0, hqe⟩ := hq
    rw [← hpe, ← hqe]
    exact Pool.del_shape_pair _ _ _ (h6 _ hp0 _ hq0)

/-- Full characterization of the migration tail with a registered
`EntityRef`: the new id is the destination archetype's next slot, the store
stays well formed, the ref tracks the new id, the destination carries
exactly the supplied component values at the new slot, the ref heap is
rewritten in place, and no other archetype-map entry changes. -/
theorem migrateTail_spec (s1 : Storage) (srcId : EntityId) (dstK : List Nat)
    (F : Nat → Option Nat) (rid : Nat) (aSrc aDst : Archetype)
    (hWF : s1.WF)
    (hsrc : alGet s1.archetypes srcId.arch = some aSrc)
    (hdst : alGet s1.archetypes dstK = some aDst)
    (halive : ∀ p ∈ aSrc.storages, p.filled.getD srcId.idx false = true)
    (hF : ∀ u ∈ dstK, (F u).isSome) :
    (migrateTail s1 srcId dstK (dstK.map (fun u => CompV.mk u (F u))) (some rid)).2
        = ⟨dstK, (aDst.storages.getD 0 emptyPool).nextSlot⟩ ∧
    (migrateTail s1 srcId dstK (dstK.map (fun u => CompV.mk u (F u))) (some rid)).1.WF ∧
    (migrateTail s1 srcId dstK (dstK.map (fun u => CompV.mk u (F u))) (some rid)).1.Tracks
        ⟨dstK, (aDst.storages.getD 0 emptyPool).nextSlot⟩ rid ∧
    (∀ u ∈ dstK,
      (migrateTail s1 srcId dstK (dstK.map (fun u => CompV.mk u (F u))) (some rid)).1.getComponent
          ⟨dstK, (aDst.storages.getD 0 emptyPool).nextSlot⟩ u = F u) ∧
    (∀ u, u ∉ dstK →
      (migrateTail s1 srcId dstK (dstK.map (fun u => CompV.mk u (F u))) (some rid)).1.getComponent
          ⟨dstK, (aDst.storages.getD 0 emptyPool).nextSlot⟩ u = none) ∧
    (migrateTail s1 srcId dstK (dstK.map (fun u => CompV.mk u (F u))) (some rid)).1.refHeap
        = alSet s1.refHeap rid
            ⟨⟨dstK, (aDst.storages.getD 0 emptyPool).nextSlot⟩, some dstK⟩ ∧
    (alGet (migrateTail s1 srcId dstK (dstK.map (fun u => CompV.mk u (F u)))
        (some rid)).1.archetypes srcId.arch).isSome ∧
    (∀ k2, k2 ≠ srcId.arch → k2 ≠ dstK →
      alGet (migrateTail s1 srcId dstK (dstK.map (fun u => CompV.mk u (F u)))
          (some rid)).1.archetypes k2 = alGet s1.archetypes k2) := by
  obtain ⟨hsaid, hstypes, hsWF⟩ := hWF _ (alGet_mem _ _ _ hsrc)
  obtain ⟨hdaid, hdtypes, hdWF⟩ := hWF _ (alGet_mem _ _ _ hdst)
  have hFt : ∀ u ∈ aDst.types, (F u).isSome := by
    rw [hdtypes]
    exact hF
  have hcompsEq : dstK.map (fun u => CompV.mk u (F u))
      = aDst.types.map (fun u => CompV.mk u (F u)) := by rw [hdtypes]
  obtain ⟨hsp2, hspaid, hsptypes, hsprefs, hsplen, hspget⟩ := aDst.spawn_uniform F hdWF hFt
  obtain ⟨hRWF, hRfil, hRget, hRnone⟩ := aDst.spawn_reads F hdWF hFt
  unfold migrateTail
  dsimp only
  rw [hdst]
  simp only [Option.getD_some]
  rw [hcompsEq, hsp2]
  simp only [u32_ofNat]
  generalize hR : (aDst.spawn (aDst.types.map (fun u => CompV.mk u (F u)))).1 = R
  rw [hR] at hspaid hsptypes hsprefs hsplen hspget hRWF hRfil hRget hRnone
  have hRaid : R.aid = dstK := by rw [hspaid, hdaid]
  have hRtypes : R.types = dstK := by rw [hsptypes, hdtypes]
  have hdlen0 : 0 < aDst.storages.length := by
    rw [hdWF.2.2.2.1]
    exact List.length_pos.mpr hdWF.1
  by_cases hkey : srcId.arch = dstK
  · subst hkey
    rw [hsrc] at hdst
    injection hdst with haa
    subst haa
    have h0mem : aSrc.storages.getD 0 emptyPool ∈ aSrc.storages :=
      getD_mem_of_lt _ _ _ hdlen0
    have hnidx : (aSrc.storages.getD 0 emptyPool).nextSlot ≠ srcId.idx :=
      Pool.nextSlot_not_filled _ (hdWF.2.2.2.2.1 _ h0mem) _ (halive _ h0mem)
    have hNe : (⟨srcId.arch, (aSrc.storages.getD 0 emptyPool).nextSlot⟩ : EntityId)
        ≠ srcId := fun he => hnidx (congrArg EntityId.idx he)
    have hRaid2 : R.aid = srcId.arch := hRaid
    unfold Storage.mapRefs Storage.archDelete
    dsimp only
    rw [alGet_alSet_self]
    dsimp only
    rw [alGet_alSet_self]
    dsimp only
    rw [alGet_alSet_self]
    dsimp only
    rw [hRaid2, show (⟨srcId.arch, srcId.idx⟩ : EntityId) = srcId from rfl]
    rw [alGet_alSet_ne _ _ _ _ hNe, alGet_alErase_self]
    dsimp only
    refine ⟨by trivial, ?_, ?_, ?_, ?_, by trivial, ?_, ?_⟩
    · unfold Storage.WF
      dsimp only
      apply forall_mem_alSet
      · apply forall_mem_alSet
        · apply forall_mem_alSet
          · apply forall_mem_alSet
            · exact hWF
            · exact ⟨hRaid2, hRtypes, hRWF⟩
          · exact ⟨rfl, hRtypes, hRWF⟩
        · exact ⟨rfl, hRtypes, hRWF⟩
      · exact ⟨rfl, hRtypes,
          Archetype.WF_mapDel R srcId.idx
            (alSet (alErase R.refs srcId)
              ⟨srcId.arch, (aSrc.storages.getD 0 emptyPool).nextSlot⟩ rid) hRWF⟩
    · refine ⟨_, alGet_alSet_self _ _ _, ?_, ?_, ?_⟩
      · intro p hp
        dsimp only at hp
        simp only [List.mem_map] at hp
        obtain ⟨q, hq, he⟩ := hp
        rw [← he]
        dsimp only
        rw [Pool.del_filled_other _ _ _ hnidx]
        exact hRfil q hq
      · dsimp only
        exact alGet_alSet_self _ _ _
      · dsimp only
        exact alGet_alSet_self _ _ _
    · intro u hu
      unfold Storage.getComponent
      dsimp only
      rw [alGet_alSet_self]
      dsimp only
      calc ((Archetype.mk srcId.arch R.types
              (R.storages.map (fun p => p.del srcId.idx))
              (alSet (alErase R.refs srcId)
                ⟨srcId.arch, (aSrc.storages.getD 0 emptyPool).nextSlot⟩ rid)).getComponent
            (aSrc.storages.getD 0 emptyPool).nextSlot u)
            = R.getComponent (aSrc.storages.getD 0 emptyPool).nextSlot u :=
          Archetype.getComponent_del R _ srcId.idx _ u rfl rfl hnidx
        _ = F u := hRget u (by rw [hdtypes]; exact hu)
    · intro u hu
      unfold Storage.getComponent
      dsimp only
      rw [alGet_alSet_self]
      dsimp only
      calc ((Archetype.mk srcId.arch R.types
              (R.storages.map (fun p => p.del srcId.idx))
              (alSet (alErase R.refs srcId)
                ⟨srcId.arch, (aSrc.storages.getD 0 emptyPool).nextSlot⟩ rid)).getComponent
            (aSrc.storages.getD 0 emptyPool).nextSlot u)
            = R.getComponent (aSrc.storages.getD 0 emptyPool).nextSlot u :=
          Archetype.getComponent_del R _ srcId.idx _ u rfl rfl hnidx
        _ = none := hRnone u (by rw [hdtypes]; exact hu)
    · rw [alGet_alSet_self]
      rfl
    · intro k2 h1 h2
      rw [alGet_alSet_ne _ _ _ _ (fun he => h1 he.symm),
        alGet_alSet_ne _ _ _ _ (fun he => h1 he.symm),
        alGet_alSet_ne _ _ _ _ (fun he => h1 he.symm),
        alGet_alSet_ne _ _ _ _ (fun he => h1 he.symm)]
  · have hkey2 : dstK ≠ srcId.arch := fun he => hkey he.symm
    unfold Storage.mapRefs Storage.archDelete
    dsimp only
    rw [alGet_alSet_ne _ _ _ _ hkey2, hsrc]
    dsimp only
    rw [alGet_alSet_ne _ _ _ _ hkey, alGet_alSet_self]
    dsimp only
    rw [alGet_alSet_ne _ _ _ _ hkey2, alGet_alSet_self]
    dsimp only
    rw [hsaid, show (⟨srcId.arch, srcId.idx⟩ : EntityId) = srcId from rfl]
    rw [alGet_alErase_self]
    dsimp only
    refine ⟨by trivial, ?_, ?_, ?_, ?_, by trivial, ?_, ?_⟩
    · unfold Storage.WF
      dsimp only
      apply forall_mem_alSet
      · apply forall_mem_alSet
        · apply forall_mem_alSet
          · apply forall_mem_alSet
            · exact hWF
            · exact ⟨hRaid, hRtypes, hRWF⟩
          · exact ⟨rfl, hstypes, hsWF⟩
        · exact ⟨hRaid, hRtypes, hRWF⟩
      · exact ⟨rfl, hstypes,
          Archetype.WF_mapDel aSrc srcId.idx (alErase aSrc.refs srcId) hsWF⟩
    · refine ⟨Archetype.mk R.aid R.types R.storages
          (alSet R.refs ⟨dstK, (aDst.storages.getD 0 emptyPool).nextSlot⟩ rid),
          ?_, ?_, ?_, ?_⟩
      · dsimp only
        rw [alGet_alSet_ne _ _ _ _ hkey, alGet_alSet_self]
      · intro p hp
        dsimp only at hp
        exact hRfil p hp
      · dsimp only
        exact alGet_alSet_self _ _ _
      · dsimp only
        exact alGet_alSet_self _ _ _
    · intro u hu
      unfold Storage.getComponent
      dsimp only
      rw [alGet_alSet_ne _ _ _ _ hkey, alGet_alSet_self]
      dsimp only
      exact hRget u (by rw [hdtypes]; exact hu)
    · intro u hu
      unfold Storage.getComponent
      dsimp only
      rw [alGet_alSet_ne _ _ _ _ hkey, alGet_alSet_self]
      dsimp only
      exact hRnone u (by rw [hdtypes]; exact hu)
    · rw [alGet_alSet_self]
      rfl
    · intro k2 h1 h2
      rw [alGet_alSet_ne _ _ _ _ (fun he => h1 he.symm),
        alGet_alSet_ne _ _ _ _ (fun he => h2 he.symm),
        alGet_alSet_ne _ _ _ _ (fun he => h1 he.symm),
        alGet_alSet_ne _ _ _ _ (fun he => h2 he.symm)]

/-- One `AddComponent` step on a tracked live entity with a fresh type:
well-formedness and ref tracking are preserved, the new id lives in the
sorted extended archetype, every other component value is carried over, and
the added component reads back. -/
theorem addComponent_step (s : Storage) (id : EntityId) (t v : Nat) (rid : Nat)
    (a : Archetype)
    (hWF : s.WF) (ha : alGet s.archetypes id.arch = some a)
    (htr : s.Tracks id rid) (ht : t ∉ a.types) :
    (s.addComponent id t v).1.WF ∧
    (s.addComponent id t v).1.Tracks (s.addComponent id t v).2 rid ∧
    (s.addComponent id t v).2.arch = sortTypes (a.types ++ [t]) ∧
    (∀ u, u ≠ t → (s.addComponent id t v).1.getComponent (s.addComponent id t v).2 u
        = s.getComponent id u) ∧
    (s.addComponent id t v).1.getComponent (s.addComponent id t v).2 t = some v := by
  obtain ⟨aT, haT, halive, hrefs, hheap⟩ := htr
  rw [ha] at haT
  injection haT with haT
  subst haT
  obtain ⟨haid, htypes, haWF⟩ := hWF _ (alGet_mem _ _ _ ha)
  dsimp only at haid htypes haWF
  have hsort := sortTypes_addType a.types t haWF.2.1 haWF.2.2.1 ht
  obtain ⟨hWF1, ⟨aD, haD, haDaid, haDtypes, haDWF⟩, hpres, hheap1⟩ :=
    ensure_spec s (sortTypes (a.types ++ [t])) hWF hsort.2.2.2.2 hsort.1 hsort.2.1
  have hKne : sortTypes (a.types ++ [t]) ≠ id.arch := by
    intro he
    have hmem := (hsort.2.2.1 t).mpr (Or.inr rfl)
    rw [he, ← htypes] at hmem
    exact ht hmem
  have hsrc1 : alGet (if (alGet s.archetypes (sortTypes (a.types ++ [t]))).isSome then s
      else { s with
              archetypes := alSet s.archetypes (sortTypes (a.types ++ [t]))
                              (newArchetype (sortTypes (a.types ++ [t]))) }).archetypes
      id.arch = some a := by
    rw [hpres id.arch (fun he => hKne he.symm)]
    exact ha
  have ev := addComponent_eq s id t v a ha
  rw [comps_add_eq t v (fun u => a.getComponent id.idx u), hrefs] at ev
  have hF : ∀ u ∈ sortTypes (a.types ++ [t]),
      ((fun u => if u = t then some v else a.getComponent id.idx u) u).isSome := by
    intro u hu
    dsimp only
    by_cases hut : u = t
    · rw [if_pos hut]
      rfl
    · rw [if_neg hut]
      have hmem : u ∈ a.types := by
        rcases (hsort.2.2.1 u).mp hu with h | h
        · exact h
        · exact absurd h hut
      exact a.getComponent_isSome id.idx u haWF hmem halive
  have hspec := migrateTail_spec _ id (sortTypes (a.types ++ [t]))
    (fun u => if u = t then some v else a.getComponent id.idx u) rid a aD
    hWF1 hsrc1 haD halive hF
  rw [ev]
  refine ⟨hspec.2.1, ?_, ?_, ?_, ?_⟩
  · rw [hspec.1]
    exact hspec.2.2.1
  · rw [hspec.1]
  · intro u hut
    rw [hspec.1]
    by_cases hu : u ∈ a.types
    · have huK : u ∈ sortTypes (a.types ++ [t]) := (hsort.2.2.1 u).mpr (Or.inl hu)
      rw [hspec.2.2.2.1 u huK]
      dsimp only
      rw [if_neg hut]
      unfold Storage.getComponent
      rw [ha]
    · have huK : u ∉ sortTypes (a.types ++ [t]) := by
        intro hm
        rcases (hsort.2.2.1 u).mp hm with h | h
        · exact hu h
        · exact hut h
      rw [hspec.2.2.2.2.1 u huK]
      unfold Storage.getComponent
      rw [ha]
      dsimp only
      exact (a.getComponent_not_mem id.idx u hu).symm
  · rw [hspec.1]
    have htK : t ∈ sortTypes (a.types ++ [t]) := (hsort.2.2.1 t).mpr (Or.inr rfl)
    rw [hspec.2.2.2.1 t htK]
    dsimp only
    rw [if_pos rfl]

/-- One `RemoveComponent` step on a tracked live entity, when at least one
type remains: well-formedness and ref tracking survive, the new id lives in
the filtered archetype, every other component value is carried over, and
the removed type reads back as absent.  Removal of a type the entity does
not carry is the aliased migration into the same archetype and is covered
as well. -/
theorem removeComponent_step (s : Storage) (id : EntityId) (t : Nat) (rid : Nat)
    (a : Archetype)
    (hWF : s.WF) (ha : alGet s.archetypes id.arch = some a)
    (htr : s.Tracks id rid)
    (hne : a.types.filter (fun u => decide (u ≠ t)) ≠ []) :
    (s.removeComponent id t).1.WF ∧
    (s.removeComponent id t).1.Tracks (s.removeComponent id t).2 rid ∧
    (s.removeComponent id t).2.arch = a.types.filter (fun u => decide (u ≠ t)) ∧
    (∀ u, u ≠ t → (s.removeComponent id t).1.getComponent (s.removeComponent id t).2 u
        = s.getComponent id u) ∧
    (s.removeComponent id t).1.getComponent (s.removeComponent id t).2 t = none := by
  obtain ⟨aT, haT, halive, hrefs, hheap⟩ := htr
  rw [ha] at haT
  injection haT with haT
  subst haT
  obtain ⟨haid, htypes, haWF⟩ := hWF _ (alGet_mem _ _ _ ha)
  dsimp only at haid htypes haWF
  have hfil := filter_ne_spec a.types t haWF.2.1 haWF.2.2.1
  obtain ⟨hWF1, ⟨aD, haD, haDaid, haDtypes, haDWF⟩, hpres, hheap1⟩ :=
    ensure_spec s (a.types.filter (fun u => decide (u ≠ t))) hWF hne hfil.1 hfil.2.1
  have hsrc1 : alGet (if (alGet s.archetypes
        (a.types.filter (fun u => decide (u ≠ t)))).isSome then s
      else { s with
              archetypes := alSet s.archetypes (a.types.filter (fun u => decide (u ≠ t)))
                              (newArchetype (a.types.filter (fun u => decide (u ≠ t)))) }).archetypes
      id.arch = some a := by
    by_cases hKid : a.types.filter (fun u => decide (u ≠ t)) = id.arch
    · have hiss : (alGet s.archetypes (a.types.filter (fun u => decide (u ≠ t)))).isSome := by
        rw [hKid, ha]
        rfl
      rw [if_pos hiss]
      exact ha
    · rw [hpres id.arch (fun he => hKid he.symm)]
      exact ha
  have ev := removeComponent_eq s id t a ha hne
  rw [hrefs] at ev
  have hF : ∀ u ∈ a.types.filter (fun u => decide (u ≠ t)),
      (a.getComponent id.idx u).isSome := by
    intro u hu
    exact a.getComponent_isSome id.idx u haWF ((hfil.2.2.2 u).mp hu).1 halive
  have hspec := migrateTail_spec _ id (a.types.filter (fun u => decide (u ≠ t)))
    (fun u => a.getComponent id.idx u) rid a aD
    hWF1 hsrc1 haD halive hF
  rw [ev]
  refine ⟨hspec.2.1, ?_, ?_, ?_, ?_⟩
  · rw [hspec.1]
    exact hspec.2.2.1
  · rw [hspec.1]
  · intro u hut
    rw [hspec.1]
    by_cases hu : u ∈ a.types
    · have huK : u ∈ a.types.filter (fun x => decide (x ≠ t)) :=
        (hfil.2.2.2 u).mpr ⟨hu, hut⟩
      rw [hspec.2.2.2.1 u huK]
      unfold Storage.getComponent
      rw [ha]
    · have huK : u ∉ a.types.filter (fun x => decide (x ≠ t)) := by
        intro hm
        exact hu ((hfil.2.2.2 u).mp hm).1
      rw [hspec.2.2.2.2.1 u huK]
      unfold Storage.getComponent
      rw [ha]
      dsimp only
      exact (a.getComponent_not_mem id.idx u hu).symm
  · rw [hspec.1]
    rw [hspec.2.2.2.2.1 t hfil.2.2.1]

/-- A tracked ref resolves to the entity's current id with `ok = true`. -/
theorem tracks_resolve (s : Storage) (id : EntityId) (rid : Nat) (hWF : s.WF)
    (htr : s.Tracks id rid) : s.resolveEntityRef (some rid) = (id, true) := by
  obtain ⟨a, ha, halive, hrefs, hheap⟩ := htr
  obtain ⟨haid, htypes, haWF⟩ := hWF _ (alGet_mem _ _ _ ha)
  dsimp only at htypes haWF
  have hne : id ≠ zeroId := by
    intro he
    have harch : id.arch = [] := by rw [he]; rfl
    rw [harch] at htypes
    exact haWF.1 htypes
  unfold Storage.resolveEntityRef
  dsimp only
  rw [hheap]
  dsimp only
  rw [if_neg hne]

/-- A tracked entity is alive (its slot is occupied in the first pool). -/
theorem tracks_isAlive (s : Storage) (id : EntityId) (rid : Nat) (hWF : s.WF)
    (htr : s.Tracks id rid) : s.isAlive id = true := by
  obtain ⟨a, ha, halive, -, -⟩ := htr
  obtain ⟨-, htypes, haWF⟩ := hWF _ (alGet_mem _ _ _ ha)
  dsimp only at htypes haWF
  unfold Storage.isAlive
  rw [ha]
  dsimp only
  cases hs : a.storages with
  | nil =>
    have hlen := haWF.2.2.2.1
    rw [hs] at hlen
    have h2 := List.length_pos.mpr haWF.1
    simp at hlen
    omega
  | cons p rest =>
    have hp : p ∈ a.storages := by
      rw [hs]
      exact List.mem_cons_self _ _
    exact (Pool.get_eq_of_filled p id.idx (haWF.2.2.2.2.1 p hp) (halive p hp)).2

/-- `CreateEntityRef` on a live entity without a registered ref: allocates
ref id `nextRefId`, keeps the store well formed, and starts tracking. -/
theorem createEntityRef_fresh (s : Storage) (id : EntityId) (a : Archetype)
    (hWF : s.WF) (ha : alGet s.archetypes id.arch = some a)
    (halive : ∀ p ∈ a.storages, p.filled.getD id.idx false = true)
    (hfresh : alGet a.refs id = none) :
    (s.createEntityRef id).2 = some s.nextRefId ∧
    (s.createEntityRef id).1.WF ∧
    (s.createEntityRef id).1.Tracks id s.nextRefId := by
  obtain ⟨haid, htypes, haWF⟩ := hWF _ (alGet_mem _ _ _ ha)
  dsimp only at haid htypes haWF
  unfold Storage.createEntityRef
  rw [ha]
  dsimp only
  rw [hfresh]
  dsimp only
  refine ⟨rfl, ?_, ?_⟩
  · unfold Storage.WF
    dsimp only
    apply forall_mem_alSet
    · exact hWF
    · exact ⟨haid, htypes, haWF⟩
  · refine ⟨_, alGet_alSet_self _ _ _, ?_, ?_, ?_⟩
    · intro p hp
      dsimp only at hp
      exact halive p hp
    · dsimp only
      exact alGet_alSet_self _ _ _
    · dsimp only
      exact alGet_alSet_self _ _ _

/-- The tracking invariant is preserved over every defined alive-preserving
operation sequence on the tracked entity. -/
theorem tracks_run (ops : List EntOp) :
    ∀ (s : Storage) (id : EntityId) (rid : Nat), s.WF → s.Tracks id rid →
      aliveRun ops s id = true →
      (applyEntOps ops s id).1.WF ∧
      (applyEntOps ops s id).1.Tracks (applyEntOps ops s id).2 rid := by
  induction ops with
  | nil =>
    intro s id rid hWF htr hrun
    exact ⟨hWF, htr⟩
  | cons op rest ih =>
    intro s id rid hWF htr hrun
    unfold aliveRun at hrun
    rw [Bool.and_eq_true] at hrun
    obtain ⟨hok, hrun2⟩ := hrun
    unfold applyEntOps
    cases op with
    | addC t v =>
      unfold entOpOk at hok
      cases ha : alGet s.archetypes id.arch with
      | none =>
        rw [ha] at hok
        cases hok
      | some a =>
        rw [ha] at hok
        dsimp only at hok
        have ht : t ∉ a.types := of_decide_eq_true hok
        have hstep := addComponent_step s id t v rid a hWF ha htr ht
        exact ih _ _ _ hstep.1 hstep.2.1 hrun2
    | removeC t =>
      unfold entOpOk at hok
      cases ha : alGet s.archetypes id.arch with
      | none =>
        rw [ha] at hok
        cases hok
      | some a =>
        rw [ha] at hok
        dsimp only at hok
        have hne : a.types.filter (fun u => decide (u ≠ t)) ≠ [] := of_decide_eq_true hok
        have hstep := removeComponent_step s id t rid a hWF ha htr hne
        exact ih _ _ _ hstep.1 hstep.2.1 hrun2

/-- C1: for a live entity `e` with an `EntityRef` obtained through
`create_entity_ref`, after any finite sequence of defined `add_component` /
`remove_component` operations on `e` that keeps at least one component,
resolving the ref returns `(id, true)` where `id` is the id returned by the
most recent migration: the ref object (same ref-heap identity, so holders
need no action) is rewritten in place on every migration. -/
theorem ref_tracking (s : Storage) (id : EntityId) (a : Archetype) (ops : List EntOp)
    (hWF : s.WF) (ha : alGet s.archetypes id.arch = some a)
    (halive : ∀ p ∈ a.storages, p.filled.getD id.idx false = true)
    (hfresh : alGet a.refs id = none)
    (hrun : aliveRun ops (s.createEntityRef id).1 id = true) :
    (s.createEntityRef id).2 = some s.nextRefId ∧
    (applyEntOps ops (s.createEntityRef id).1 id).1.resolveEntityRef (some s.nextRefId)
      = ((applyEntOps ops (s.createEntityRef id).1 id).2, true) := by
  obtain ⟨hret, hWF1, htr1⟩ := createEntityRef_fresh s id a hWF ha halive hfresh
  obtain ⟨hWF2, htr2⟩ := tracks_run ops _ id s.nextRefId hWF1 htr1 hrun
  exact ⟨hret, tracks_resolve _ _ _ hWF2 htr2⟩

/-- Witness for C1 at a concrete store: a two-component entity gets a ref,
then an add, a migrating remove, and an aliased remove of an absent type;
the ref resolves to the final id. -/
theorem ref_tracking_witness :
    ((emptyStorage.spawn [(0, 5), (1, 7)]).1.createEntityRef ⟨[0, 1], 0⟩).2
        = some (emptyStorage.spawn [(0, 5), (1, 7)]).1.nextRefId ∧
    (applyEntOps [EntOp.addC 2 9, EntOp.removeC 0, EntOp.removeC 5]
        ((emptyStorage.spawn [(0, 5), (1, 7)]).1.createEntityRef ⟨[0, 1], 0⟩).1
        ⟨[0, 1], 0⟩).1.resolveEntityRef
          (some (emptyStorage.spawn [(0, 5), (1, 7)]).1.nextRefId)
      = ((applyEntOps [EntOp.addC 2 9, EntOp.removeC 0, EntOp.removeC 5]
          ((emptyStorage.spawn [(0, 5), (1, 7)]).1.createEntityRef ⟨[0, 1], 0⟩).1
          ⟨[0, 1], 0⟩).2, true) :=
  ref_tracking (emptyStorage.spawn [(0, 5), (1, 7)]).1 ⟨[0, 1], 0⟩
    ((alGet (emptyStorage.spawn [(0, 5), (1, 7)]).1.archetypes [0, 1]).getD
      (newArchetype []))
    [EntOp.addC 2 9, EntOp.removeC 0, EntOp.removeC 5]
    (by decide) (by decide) (by decide) (by decide) (by decide)

/-- C5: adding a fresh component type and then removing that type leaves
the component set and every remaining component value exactly as before the
pair; the final id may differ from the original, and the ref registered
beforehand resolves to the final id with `ok = true`; the entity stays
alive. -/
theorem add_remove_roundtrip (s : Storage) (id : EntityId) (t v : Nat) (rid : Nat)
    (a : Archetype)
    (hWF : s.WF) (ha : alGet s.archetypes id.arch = some a)
    (htr : s.Tracks id rid) (ht : t ∉ a.types) :
    (∃ a2, alGet ((s.addComponent id t v).1.removeComponent
          (s.addComponent id t v).2 t).1.archetypes
        ((s.addComponent id t v).1.removeComponent (s.addComponent id t v).2 t).2.arch
        = some a2 ∧ a2.types = a.types) ∧
    (∀ u, ((s.addComponent id t v).1.removeComponent
          (s.addComponent id t v).2 t).1.getComponent
        ((s.addComponent id t v).1.removeComponent (s.addComponent id t v).2 t).2 u
        = s.getComponent id u) ∧
    ((s.addComponent id t v).1.removeComponent
        (s.addComponent id t v).2 t).1.resolveEntityRef (some rid)
      = (((s.addComponent id t v).1.removeComponent (s.addComponent id t v).2 t).2,
          true) ∧
    ((s.addComponent id t v).1.removeComponent (s.addComponent id t v).2 t).1.isAlive
        ((s.addComponent id t v).1.removeComponent (s.addComponent id t v).2 t).2
      = true := by
  obtain ⟨haid, htypes, haWF⟩ := hWF _ (alGet_mem _ _ _ ha)
  dsimp only at haid htypes haWF
  have hsort := sortTypes_addType a.types t haWF.2.1 haWF.2.2.1 ht
  obtain ⟨hWF1, htr1, harch1, hvals1, htval1⟩ := addComponent_step s id t v rid a hWF ha htr ht
  obtain ⟨a1, ha1, halive1, hrefs1, hheap1⟩ := htr1
  obtain ⟨ha1aid, ha1types, ha1WF⟩ := hWF1 _ (alGet_mem _ _ _ ha1)
  dsimp only at ha1aid ha1types ha1WF
  have ha1t : a1.types = sortTypes (a.types ++ [t]) := by rw [ha1types, harch1]
  have hfe : a1.types.filter (fun u => decide (u ≠ t)) = a.types := by
    rw [ha1t]
    exact hsort.2.2.2.1
  have hne2 : a1.types.filter (fun u => decide (u ≠ t)) ≠ [] := by
    rw [hfe]
    exact haWF.1
  obtain ⟨hWF2, htr2, harch2, hvals2, htval2⟩ :=
    removeComponent_step (s.addComponent id t v).1 (s.addComponent id t v).2 t rid a1
      hWF1 ha1 ⟨a1, ha1, halive1, hrefs1, hheap1⟩ hne2
  have harcheq : ((s.addComponent id t v).1.removeComponent
      (s.addComponent id t v).2 t).2.arch = a.types := by
    rw [harch2, hfe]
  refine ⟨?_, ?_, ?_, ?_⟩
  · obtain ⟨a2, ha2, halive2, hrefs2, hheap2⟩ := htr2
    obtain ⟨-, ha2types, -⟩ := hWF2 _ (alGet_mem _ _ _ ha2)
    dsimp only at ha2types
    exact ⟨a2, ha2, by rw [ha2types, harcheq]⟩
  · intro u
    by_cases hut : u = t
    · subst hut
      rw [htval2]
      unfold Storage.getComponent
      rw [ha]
      dsimp only
      exact (a.getComponent_not_mem id.idx u ht).symm
    · rw [hvals2 u hut, hvals1 u hut]
  · exact tracks_resolve _ _ _ hWF2 htr2
  · exact tracks_isAlive _ _ _ hWF2 htr2

/-- Witness for C5 at a concrete store: entity with components `0` and `1`,
a tracked ref, then add type `2` and remove it again. -/
theorem add_remove_roundtrip_witness :
    (∀ u, ((((emptyStorage.spawn [(0, 5), (1, 7)]).1.createEntityRef
          ⟨[0, 1], 0⟩).1.addComponent ⟨[0, 1], 0⟩ 2 9).1.removeComponent
          (((emptyStorage.spawn [(0, 5), (1, 7)]).1.createEntityRef
            ⟨[0, 1], 0⟩).1.addComponent ⟨[0, 1], 0⟩ 2 9).2 2).1.getComponent
        ((((emptyStorage.spawn [(0, 5), (1, 7)]).1.createEntityRef
          ⟨[0, 1], 0⟩).1.addComponent ⟨[0, 1], 0⟩ 2 9).1.removeComponent
          (((emptyStorage.spawn [(0, 5), (1, 7)]).1.createEntityRef
            ⟨[0, 1], 0⟩).1.addComponent ⟨[0, 1], 0⟩ 2 9).2 2).2 u
        = ((emptyStorage.spawn [(0, 5), (1, 7)]).1.createEntityRef
            ⟨[0, 1], 0⟩).1.getComponent ⟨[0, 1], 0⟩ u) ∧
    ((((emptyStorage.spawn [(0, 5), (1, 7)]).1.createEntityRef
          ⟨[0, 1], 0⟩).1.addComponent ⟨[0, 1], 0⟩ 2 9).1.removeComponent
          (((emptyStorage.spawn [(0, 5), (1, 7)]).1.createEntityRef
            ⟨[0, 1], 0⟩).1.addComponent ⟨[0, 1], 0⟩ 2 9).2 2).1.resolveEntityRef (some 0)
      = (((((emptyStorage.spawn [(0, 5), (1, 7)]).1.createEntityRef
            ⟨[0, 1], 0⟩).1.addComponent ⟨[0, 1], 0⟩ 2 9).1.removeComponent
            (((emptyStorage.spawn [(0, 5), (1, 7)]).1.createEntityRef
              ⟨[0, 1], 0⟩).1.addComponent ⟨[0, 1], 0⟩ 2 9).2 2).2, true) := by
  have h := add_remove_roundtrip
    ((emptyStorage.spawn [(0, 5), (1, 7)]).1.createEntityRef ⟨[0, 1], 0⟩).1
    ⟨[0, 1], 0⟩ 2 9 0
    ((alGet ((emptyStorage.spawn [(0, 5), (1, 7)]).1.createEntityRef
      ⟨[0, 1], 0⟩).1.archetypes [0, 1]).getD (newArchetype []))
    (by decide) (by decide) (by decide) (by decide)
  exact ⟨h.2.1, h.2.2.1⟩

/-! ## Archetype compaction (C7) -/

theorem alGet_append {K V : Type} [DecidableEq K] (l1 l2 : List (K × V)) (k : K) :
    alGet (l1 ++ l2) k = (match alGet l1 k with
      | some v => some v
      | none => alGet l2 k) := by
  induction l1 with
  | nil => rfl
  | cons e rest ih =>
    obtain ⟨k0, v0⟩ := e
    rw [List.cons_append, alGet_cons, alGet_cons]
    by_cases h : k0 = k
    · rw [if_pos h, if_pos h]
    · rw [if_neg h, if_neg h, ih]

/-- Distinct keys of a value-duplicate-free map hold distinct values. -/
theorem alGet_ne_of_nodup_values {K V : Type} [DecidableEq K]
    (l : List (K × V)) (hnd : (l.map (fun e => e.2)).Nodup) (k1 k2 : K) (v1 v2 : V)
    (h1 : alGet l k1 = some v1) (h2 : alGet l k2 = some v2) (hk : k1 ≠ k2) : v1 ≠ v2 := by
  induction l with
  | nil => cases h1
  | cons e rest ih =>
    obtain ⟨k0, v0⟩ := e
    rw [alGet_cons] at h1 h2
    rw [List.map_cons, List.nodup_cons] at hnd
    by_cases hA : k0 = k1
    · rw [if_pos hA] at h1
      injection h1 with h1
      rw [if_neg (by rw [hA]; exact hk)] at h2
      intro he
      apply hnd.1
      refine List.mem_map.mpr ⟨(k2, v2), alGet_mem rest k2 v2 h2, ?_⟩
      rw [← he, h1]
    · rw [if_neg hA] at h1
      by_cases hB : k0 = k2
      · rw [if_pos hB] at h2
        injection h2 with h2
        intro he
        apply hnd.1
        refine List.mem_map.mpr ⟨(k1, v1), alGet_mem rest k1 v1 h1, ?_⟩
        rw [he, h2]
      · rw [if_neg hB] at h2
        exact ih hnd.2 h1 h2

theorem zip_range_mem (l : List Nat) (j : Nat) (hj : j < l.length) :
    (l.getD j 0, j) ∈ l.zip (List.range l.length) := by
  apply List.mem_iff_getElem.mpr
  have hjz : j < (l.zip (List.range l.length)).length := by
    rw [List.length_zip, List.length_range]
    omega
  refine ⟨j, hjz, ?_⟩
  rw [List.getElem_zip, List.getElem_range, List.getD_eq_getElem l 0 hj]

theorem mem_zip_range (l : List Nat) (o n2 : Nat)
    (h : (o, n2) ∈ l.zip (List.range l.length)) :
    n2 < l.length ∧ l.getD n2 0 = o := by
  obtain ⟨j, hj, he⟩ := List.mem_iff_getElem.mp h
  have hjl : j < l.length := by
    rw [List.length_zip, List.length_range] at hj
    omega
  rw [List.getElem_zip] at he
  injection he with he1 he2
  rw [List.getElem_range] at he2
  subst he2
  exact ⟨hjl, by rw [List.getD_eq_getElem l 0 hjl, he1]⟩

theorem Pool.ShapeEq.occList_eq {p q : Pool} (h : p.ShapeEq q) : p.occList = q.occList := by
  obtain ⟨-, h2, -, h4⟩ := h
  unfold Pool.occList
  rw [h2, h4]

/-- Frame property of the ref-rewrite fold of `Archetype.Compact`: entries
for ref ids not touched by the remaining map survive, and the rebuilt weak
table only grows. -/
theorem compactRefs_frame (aid : List Nat) (refs : List (EntityId × Nat)) :
    ∀ (m : List (Nat × Nat)) (acc : List (Nat × EntityRefData) × List (EntityId × Nat))
      (rid : Nat) (d : EntityRefData) (key : EntityId) (v : Nat),
      (∀ e ∈ m, ∀ r2, alGet refs ⟨aid, e.1⟩ = some r2 → r2 ≠ rid) →
      alGet acc.1 rid = some d → alGet acc.2 key = some v →
      alGet (m.foldl
        (fun (acc : List (Nat × EntityRefData) × List (EntityId × Nat)) om =>
          match alGet refs ⟨aid, om.1⟩ with
          | some rid =>
              (alSet acc.1 rid ⟨⟨aid, om.2⟩, some aid⟩,
               acc.2 ++ [(⟨aid, om.2⟩, rid)])
          | none => acc) acc).1 rid = some d ∧
      alGet (m.foldl
        (fun (acc : List (Nat × EntityRefData) × List (EntityId × Nat)) om =>
          match alGet refs ⟨aid, om.1⟩ with
          | some rid =>
              (alSet acc.1 rid ⟨⟨aid, om.2⟩, some aid⟩,
               acc.2 ++ [(⟨aid, om.2⟩, rid)])
          | none => acc) acc).2 key = some v := by
  intro m
  induction m with
  | nil =>
    intro acc rid d key v hno h1 h2
    exact ⟨h1, h2⟩
  | cons e m ih =>
    intro acc rid d key v hno h1 h2
    obtain ⟨o1, m1⟩ := e
    rw [List.foldl_cons]
    cases hl : alGet refs ⟨aid, o1⟩ with
    | none =>
      simp only [List.foldl_cons, hl]
      exact ih acc rid d key v (fun e2 he2 => hno e2 (List.mem_cons_of_mem _ he2)) h1 h2
    | some r1 =>
      have hr1 : r1 ≠ rid := hno (o1, m1) (List.mem_cons_self _ _) r1 hl
      simp only [List.foldl_cons, hl]
      refine ih _ rid d key v (fun e2 he2 => hno e2 (List.mem_cons_of_mem _ he2)) ?_ ?_
      · dsimp only
        rw [alGet_alSet_ne _ _ _ _ hr1]
        exact h1
      · dsimp only
        rw [alGet_append, h2]

/-- The ref-rewrite fold of `Archetype.Compact`: each mapped entity with a
registered ref gets its heap object repointed to the new slot and a fresh
weak-table entry under the new id. -/
theorem compactRefs_spec (aid : List Nat) (refs : List (EntityId × Nat))
    (hinj : (refs.map (fun e => e.2)).Nodup) :
    ∀ (m : List (Nat × Nat)) (acc : List (Nat × EntityRefData) × List (EntityId × Nat)),
      (m.map (fun e => e.1)).Nodup →
      (m.map (fun e => e.2)).Nodup →
      (∀ e ∈ m, alGet acc.2 ⟨aid, e.2⟩ = none) →
      ∀ o n2 rid, (o, n2) ∈ m → alGet refs ⟨aid, o⟩ = some rid →
        alGet (m.foldl
          (fun (acc : List (Nat × EntityRefData) × List (EntityId × Nat)) om =>
            match alGet refs ⟨aid, om.1⟩ with
            | some rid =>
                (alSet acc.1 rid ⟨⟨aid, om.2⟩, some aid⟩,
                 acc.2 ++ [(⟨aid, om.2⟩, rid)])
            | none => acc) acc).1 rid = some ⟨⟨aid, n2⟩, some aid⟩ ∧
        alGet (m.foldl
          (fun (acc : List (Nat × EntityRefData) × List (EntityId × Nat)) om =>
            match alGet refs ⟨aid, om.1⟩ with
            | some rid =>
                (alSet acc.1 rid ⟨⟨aid, om.2⟩, some aid⟩,
                 acc.2 ++ [(⟨aid, om.2⟩, rid)])
            | none => acc) acc).2 ⟨aid, n2⟩ = some rid := by
  intro m
  induction m with
  | nil =>
    intro acc h1 h2 h3 o n2 rid hmem
    cases hmem
  | cons e m ih =>
    intro acc hfst hsnd htbl o n2 rid hmem hr
    obtain ⟨o1, m1⟩ := e
    rw [List.map_cons, List.nodup_cons] at hfst hsnd
    rw [List.foldl_cons]
    rcases List.mem_cons.mp hmem with he | hmem2
    · injection he with he1 he2
      subst he1
      subst he2
      simp only [List.foldl_cons, hr]
      apply compactRefs_frame
      · intro e2 he2 r2 hr2
        have hne1 : e2.1 ≠ o := by
          intro hee
          apply hfst.1
          refine List.mem_map.mpr ⟨e2, he2, ?_⟩
          rw [hee]
        exact alGet_ne_of_nodup_values refs hinj _ _ r2 rid hr2 hr
          (fun hee => hne1 (congrArg EntityId.idx hee))
      · dsimp only
        exact alGet_alSet_self _ _ _
      · dsimp only
        rw [alGet_append, htbl (o, n2) (List.mem_cons_self _ _)]
        rw [alGet_cons, if_pos rfl]
    · have hstep : ∀ (acc2 : List (Nat × EntityRefData) × List (EntityId × Nat)),
          (∀ e2 ∈ m, alGet acc2.2 ⟨aid, e2.2⟩ = none) →
          alGet (m.foldl
            (fun (acc : List (Nat × EntityRefData) × List (EntityId × Nat)) om =>
              match alGet refs ⟨aid, om.1⟩ with
              | some rid =>
                  (alSet acc.1 rid ⟨⟨aid, om.2⟩, some aid⟩,
                   acc.2 ++ [(⟨aid, om.2⟩, rid)])
              | none => acc) acc2).1 rid = some ⟨⟨aid, n2⟩, some aid⟩ ∧
          alGet (m.foldl
            (fun (acc : List (Nat × EntityRefData) × List (EntityId × Nat)) om =>
              match alGet refs ⟨aid, om.1⟩ with
              | some rid =>
                  (alSet acc.1 rid ⟨⟨aid, om.2⟩, some aid⟩,
                   acc.2 ++ [(⟨aid, om.2⟩, rid)])
              | none => acc) acc2).2 ⟨aid, n2⟩ = some rid :=
        fun acc2 htbl2 => ih acc2 hfst.2 hsnd.2 htbl2 o n2 rid hmem2 hr
      cases hl : alGet refs ⟨aid, o1⟩ with
      | none =>
        simp only [List.foldl_cons, hl]
        exact hstep acc (fun e2 he2 => htbl e2 (List.mem_cons_of_mem _ he2))
      | some r1 =>
        simp only [List.foldl_cons, hl]
        apply hstep
        intro e2 he2
        dsimp only
        rw [alGet_append, htbl e2 (List.mem_cons_of_mem _ he2)]
        have hne2 : m1 ≠ e2.2 := by
          intro hee
          apply hsnd.1
          refine List.mem_map.mpr ⟨e2, he2, ?_⟩
          rw [← hee]
        rw [alGet_cons, if_neg (fun hee => hne2 (congrArg EntityId.idx hee))]
        rfl

/-- C7: compacting an archetype (well-formed store, fully well-formed pools
with the freelist listing every hole, duplicate-free ref identities)
preserves the set of living entities and their component values — the
entity at the j-th still-occupied slot (ascending) moves to slot `j` with
every component value intact; afterwards the occupied slots of every pool
are exactly `0..n-1` for `n` the living count; and every registered
`EntityRef` keeps its identity, is re-registered under the new id, and
resolves to the archetype's id paired with the new slot. -/
theorem archetype_compact_spec (s : Storage) (k : List Nat) (a : Archetype)
    (hWF : s.WF) (ha : alGet s.archetypes k = some a)
    (hfull : ∀ p ∈ a.storages, p.WFfull)
    (hinj : (a.refs.map (fun e => e.2)).Nodup) :
    ∃ a2, alGet (s.compactArchetype k).archetypes k = some a2 ∧
      a2.types = a.types ∧
      (∀ p ∈ a2.storages, ∀ i, p.has i
        = decide (i < (a.storages.getD 0 emptyPool).occList.length)) ∧
      (∀ j, j < (a.storages.getD 0 emptyPool).occList.length → ∀ u,
        a2.getComponent j u
          = a.getComponent ((a.storages.getD 0 emptyPool).occList.getD j 0) u) ∧
      (∀ j, j < (a.storages.getD 0 emptyPool).occList.length → ∀ rid,
        alGet a.refs ⟨a.aid, (a.storages.getD 0 emptyPool).occList.getD j 0⟩
            = some rid →
          alGet a2.refs ⟨a.aid, j⟩ = some rid ∧
          (s.compactArchetype k).resolveEntityRef (some rid) = (⟨a.aid, j⟩, true)) := by
  obtain ⟨haid, htypes, haWF⟩ := hWF _ (alGet_mem _ _ _ ha)
  dsimp only at haid htypes haWF
  have hlen0 : 0 < a.storages.length := by
    rw [haWF.2.2.2.1]
    exact List.length_pos.mpr haWF.1
  unfold Storage.compactArchetype
  rw [ha]
  dsimp only
  split
  · rename_i heq
    rw [heq] at hlen0
    simp at hlen0
  · rename_i p0 rest heq
    have hp0mem : p0 ∈ a.storages := by
      rw [heq]
      exact List.mem_cons_self _ _
    have hocc : ∀ q ∈ a.storages, q.occList = p0.occList :=
      fun q hq => (haWF.2.2.2.2.2 q hq p0 hp0mem).occList_eq
    have hg0 : a.storages.getD 0 emptyPool = p0 := by
      rw [heq]
      rfl
    have hc0 := Pool.compact_spec p0 (hfull p0 hp0mem)
    have hoccnd : p0.occList.Nodup := (List.nodup_range _).filter _
    have hfst : ((p0.compact.2).map (fun e => e.1)).Nodup := by
      rw [hc0.1]
      have hmf : List.map (fun e : Nat × Nat => e.1)
          (p0.occList.zip (List.range p0.occList.length)) = p0.occList :=
        List.map_fst_zip _ _ (by rw [List.length_range])
      rw [hmf]
      exact hoccnd
    have hsnd : ((p0.compact.2).map (fun e => e.2)).Nodup := by
      rw [hc0.1]
      have hms : List.map (fun e : Nat × Nat => e.2)
          (p0.occList.zip (List.range p0.occList.length))
            = List.range p0.occList.length :=
        List.map_snd_zip _ _ (by rw [List.length_range])
      rw [hms]
      exact List.nodup_range _
    rw [hg0]
    refine ⟨_, alGet_alSet_self _ _ _, rfl, ?_, ?_, ?_⟩
    · intro p hp i
      dsimp only at hp
      rcases List.mem_cons.mp hp with he | hm
      · rw [he, hc0.2.1 i]
      · simp only [List.mem_map] at hm
        obtain ⟨q, hq, hqe⟩ := hm
        have hqmem : q ∈ a.storages := by
          rw [heq]
          exact List.mem_cons_of_mem _ hq
        rw [← hqe, (Pool.compact_spec q (hfull q hqmem)).2.1 i, hocc q hqmem]
    · intro j hj u
      unfold Archetype.getComponent
      dsimp only
      cases hfi : a.types.findIdx? (fun x => x = u) with
      | none => rfl
      | some jd =>
        dsimp only
        have hjd : jd < a.storages.length := by
          obtain ⟨hlt, -⟩ := List.findIdx?_eq_some_iff_findIdx_eq.mp hfi
          rw [haWF.2.2.2.1]
          omega
        have hjdmem : a.storages.getD jd emptyPool ∈ a.storages :=
          getD_mem_of_lt _ _ _ hjd
        have hsg : ((p0.compact).1 :: rest.map (fun p => (p.compact).1)).getD jd emptyPool
            = ((a.storages.getD jd emptyPool).compact).1 := by
          rw [heq]
          cases jd with
          | zero => rfl
          | succ mm =>
            rw [List.getD_cons_succ, List.getD_cons_succ]
            have hmm : mm < rest.length := by
              rw [heq] at hjd
              simpa using hjd
            exact getD_map_lt _ _ _ _ emptyPool hmm
        rw [hsg]
        have hq := Pool.compact_spec (a.storages.getD jd emptyPool) (hfull _ hjdmem)
        rw [hq.2.2.1 j (by rw [hocc _ hjdmem]; exact hj), hocc _ hjdmem]
    · intro j hj rid hr
      have hmem : (p0.occList.getD j 0, j) ∈ p0.compact.2 := by
        rw [hc0.1]
        exact zip_range_mem _ _ hj
      have hspec := compactRefs_spec a.aid a.refs hinj (p0.compact.2)
        (s.refHeap, []) hfst hsnd (fun e he => rfl)
        (p0.occList.getD j 0) j rid hmem hr
      refine ⟨hspec.2, ?_⟩
      unfold Storage.resolveEntityRef
      dsimp only
      rw [hspec.1]
      dsimp only
      have hidne : (⟨a.aid, j⟩ : EntityId) ≠ zeroId := by
        intro he
        have h1 : a.aid = [] := congrArg EntityId.arch he
        rw [haid] at h1
        rw [h1] at htypes
        exact haWF.1 htypes
      rw [if_neg hidne]

/-- Witness for C7 at a concrete store: two one-component entities, a ref
on the second, the first deleted, then the archetype compacted. -/
theorem archetype_compact_spec_witness :
    ∃ a2, alGet (((((emptyStorage.spawn [(3, 7)]).1.spawn [(3, 8)]).1.createEntityRef ⟨[3], 1⟩).1.delete ⟨[3], 0⟩).compactArchetype [3]).archetypes [3] = some a2 ∧
      a2.types = ((alGet ((((emptyStorage.spawn [(3, 7)]).1.spawn [(3, 8)]).1.createEntityRef ⟨[3], 1⟩).1.delete ⟨[3], 0⟩).archetypes [3]).getD (newArchetype [])).types ∧
      (∀ p ∈ a2.storages, ∀ i, p.has i = decide (i < (((alGet ((((emptyStorage.spawn [(3, 7)]).1.spawn [(3, 8)]).1.createEntityRef ⟨[3], 1⟩).1.delete ⟨[3], 0⟩).archetypes [3]).getD (newArchetype [])).storages.getD 0 emptyPool).occList.length)) ∧
      (∀ j, j < (((alGet ((((emptyStorage.spawn [(3, 7)]).1.spawn [(3, 8)]).1.createEntityRef ⟨[3], 1⟩).1.delete ⟨[3], 0⟩).archetypes [3]).getD (newArchetype [])).storages.getD 0 emptyPool).occList.length → ∀ u,
        a2.getComponent j u = ((alGet ((((emptyStorage.spawn [(3, 7)]).1.spawn [(3, 8)]).1.createEntityRef ⟨[3], 1⟩).1.delete ⟨[3], 0⟩).archetypes [3]).getD (newArchetype [])).getComponent ((((alGet ((((emptyStorage.spawn [(3, 7)]).1.spawn [(3, 8)]).1.createEntityRef ⟨[3], 1⟩).1.delete ⟨[3], 0⟩).archetypes [3]).getD (newArchetype [])).storages.getD 0 emptyPool).occList.getD j 0) u) ∧
      (∀ j, j < (((alGet ((((emptyStorage.spawn [(3, 7)]).1.spawn [(3, 8)]).1.createEntityRef ⟨[3], 1⟩).1.delete ⟨[3], 0⟩).archetypes [3]).getD (newArchetype [])).storages.getD 0 emptyPool).occList.length → ∀ rid,
        alGet ((alGet ((((emptyStorage.spawn [(3, 7)]).1.spawn [(3, 8)]).1.createEntityRef ⟨[3], 1⟩).1.delete ⟨[3], 0⟩).archetypes [3]).getD (newArchetype [])).refs ⟨((alGet ((((emptyStorage.spawn [(3, 7)]).1.spawn [(3, 8)]).1.createEntityRef ⟨[3], 1⟩).1.delete ⟨[3], 0⟩).archetypes [3]).getD (newArchetype [])).aid, (((alGet ((((emptyStorage.spawn [(3, 7)]).1.spawn [(3, 8)]).1.createEntityRef ⟨[3], 1⟩).1.delete ⟨[3], 0⟩).archetypes [3]).getD (newArchetype [])).storages.getD 0 emptyPool).occList.getD j 0⟩ = some rid →
          alGet a2.refs ⟨((alGet ((((emptyStorage.spawn [(3, 7)]).1.spawn [(3, 8)]).1.createEntityRef ⟨[3], 1⟩).1.delete ⟨[3], 0⟩).archetypes [3]).getD (newArchetype [])).aid, j⟩ = some rid ∧
          (((((emptyStorage.spawn [(3, 7)]).1.spawn [(3, 8)]).1.createEntityRef ⟨[3], 1⟩).1.delete ⟨[3], 0⟩).compactArchetype [3]).resolveEntityRef (some rid)
            = (⟨((alGet ((((emptyStorage.spawn [(3, 7)]).1.spawn [(3, 8)]).1.createEntityRef ⟨[3], 1⟩).1.delete ⟨[3], 0⟩).archetypes [3]).getD (newArchetype [])).aid, j⟩, true)) :=
  archetype_compact_spec ((((emptyStorage.spawn [(3, 7)]).1.spawn [(3, 8)]).1.createEntityRef ⟨[3], 1⟩).1.delete ⟨[3], 0⟩) [3] ((alGet ((((emptyStorage.spawn [(3, 7)]).1.spawn [(3, 8)]).1.createEntityRef ⟨[3], 1⟩).1.delete ⟨[3], 0⟩).archetypes [3]).getD (newArchetype [])) (by decide) (by decide) (by decide) (by decide)

end Ooftn
